import Mathlib

/-
Verification development for the go-vite chain storage core:
the append-only block log (ledger/chain/block/block_db.go), the staged
two-phase-commit key-value store (ledger/chain/db, tests in the sample),
and the state writer / redo log (ledger/chain/state/write.go).

Bytes are modelled as lists of naturals; machine integers carry explicit
moduli where overflow matters.  External collaborators that are not part
of the shown sources (the leveldb engine, the file manager, snappy,
domain-object serialization, the chain_utils key constructors and the
redo-log manager's storage) are modelled explicitly; each such definition
carries a doc comment saying what it stands for.
-/

/-- Byte strings of the model: a byte is a natural number. -/
abbrev Bytes := List Nat

/-- Fixed-length account identifier (types.Address). -/
abbrev Address := Nat

/-- Fixed-length content hash (types.Hash). -/
abbrev Hashv := Nat

/-- Fixed-length token identifier (types.TokenTypeId). -/
abbrev TokenId := Nat

/-- A single operation of an ordered-KV batch: a put or a delete,
generic in the key type (leveldb.Batch records exactly these two). -/
inductive KVOp (κ : Type) where
  | put (k : κ) (v : Bytes)
  | del (k : κ)
  deriving DecidableEq, Repr

/-- The key-value engine state, as the function from keys to stored values. -/
def Engine (κ : Type) := κ → Option Bytes

/-- Apply one batch operation to the engine: put overwrites, delete removes. -/
def applyOp {κ : Type} [DecidableEq κ] (e : Engine κ) (op : KVOp κ) : Engine κ :=
  match op with
  | .put k v => fun k' => if k' = k then some v else e k'
  | .del k => fun k' => if k' = k then none else e k'

/-- Apply a batch (a list of operations) to the engine, in order. -/
def applyOps {κ : Type} [DecidableEq κ] (e : Engine κ) (ops : List (KVOp κ)) : Engine κ :=
  ops.foldl applyOp e

/-- The net effect of a batch on one key: none when the batch never touches
the key, some r when the last operation touching it leaves it at r
(operations later in the list take priority). -/
def opsEffect {κ : Type} [DecidableEq κ] : List (KVOp κ) → κ → Option (Option Bytes)
  | [], _ => none
  | op :: tl, k =>
    match opsEffect tl k with
    | some r => some r
    | none =>
      match op with
      | .put k' v => if k = k' then some (some v) else none
      | .del k' => if k = k' then some none else none

/-- Reading a key after a batch is applied: the batch's net effect when it
touches the key, the previous engine value otherwise. -/
theorem applyOps_get {κ : Type} [DecidableEq κ] (ops : List (KVOp κ)) (e : Engine κ) (k : κ) :
    applyOps e ops k = ((opsEffect ops k).getD (e k)) := by
  induction ops generalizing e with
  | nil => simp [applyOps, opsEffect]
  | cons op tl ih =>
    show applyOps (applyOp e op) tl k = _
    rw [ih]
    show _ = (opsEffect (op :: tl) k).getD (e k)
    show _ =
      ((match opsEffect tl k with
        | some r => some r
        | none =>
          match op with
          | KVOp.put k' v => if k = k' then some (some v) else none
          | KVOp.del k' => if k = k' then some none else none)).getD (e k)
    cases hop : opsEffect tl k with
    | some r => simp
    | none =>
      cases op with
      | put k' v =>
        by_cases h : k = k' <;> simp [h, applyOp]
      | del k' =>
        by_cases h : k = k' <;> simp [h, applyOp]

/-- Re-applying the same batch a second time changes nothing: every key
touched by the batch already sits at the batch's final value. -/
theorem applyOps_idem {κ : Type} [DecidableEq κ] (ops : List (KVOp κ)) (e : Engine κ) (k : κ) :
    applyOps (applyOps e ops) ops k = applyOps e ops k := by
  rw [applyOps_get ops (applyOps e ops) k, applyOps_get ops e k]
  cases h : opsEffect ops k <;> simp [h]

/-
The staged two-phase-commit store (Store in ledger/chain/db).  Only its
test file is among the shown sources, so the operational definitions are
modelled from the spec, section 4.3, cross-checked against the observable
behavior asserted by TestFlush and TestRecover (the tests name the pending
buffer snapshotBatch and the in-flight buffer flushingBatch).
-/

/-- Operations of the staged store are keyed by raw byte strings. -/
abbrev StoreOp := KVOp Bytes

/-- States of the staged store's commit state machine (spec 4.3):
Idle, Prepared, Committed, Cancelled. -/
inductive StoreStatus where
  | idle
  | prepared
  | committed
  | cancelled
  deriving DecidableEq, Repr

/-- Modelled from the spec: the staged KV store (Store), whose
implementation file is not among the shown sources (only its tests are).
snapshotBatch is the pending buffer, flushingBatch the buffer in flight,
engine the underlying ordered KV engine. -/
structure Store where
  snapshotBatch : List StoreOp
  flushingBatch : List StoreOp
  engine : Engine Bytes
  status : StoreStatus

/-- Modelled from the spec: serialization of one batch operation for the
redo-log payload (flag byte 1 = put, 2 = delete, as in the test's
putFlag/deleteFlag, with length-prefixed key and value). -/
def encodeStoreOp : StoreOp → Bytes
  | .put k v => 1 :: (k.length :: k) ++ (v.length :: v)
  | .del k => 2 :: (k.length :: k)

/-- Modelled from the spec: Batch.Dump, serializing a batch operation list. -/
def encodeStoreOps : List StoreOp → Bytes
  | [] => []
  | op :: rest => encodeStoreOp op ++ encodeStoreOps rest

/-- Read one length-prefixed chunk from the front of a byte string,
failing when the prefix overruns the input. -/
def readChunk : Bytes → Option (Bytes × Bytes)
  | [] => none
  | n :: rest => if n ≤ rest.length then some (rest.take n, rest.drop n) else none

/-- Modelled from the spec: Batch.Load, deserializing a redo-log payload
back to the operation list; fails on malformed input.  The fuel argument
of the helper only bounds recursion depth. -/
def decodeStoreOpsAux : Nat → Bytes → Option (List StoreOp)
  | _, [] => some []
  | 0, _ :: _ => none
  | fuel + 1, 1 :: rest =>
    match readChunk rest with
    | none => none
    | some (k, r1) =>
      match readChunk r1 with
      | none => none
      | some (v, r2) =>
        match decodeStoreOpsAux fuel r2 with
        | none => none
        | some ops => some (.put k v :: ops)
  | fuel + 1, 2 :: rest =>
    match readChunk rest with
    | none => none
    | some (k, r1) =>
      match decodeStoreOpsAux fuel r1 with
      | none => none
      | some ops => some (.del k :: ops)
  | _ + 1, _ :: _ => none

/-- Modelled from the spec: Batch.Load entry point. -/
def decodeStoreOps (bs : Bytes) : Option (List StoreOp) :=
  decodeStoreOpsAux bs.length bs

/-- Modelled from the spec: Store.WriteDirectly / write, merging a batch
into the pending buffer; allowed in any state. -/
def storeWrite (s : Store) (batch : List StoreOp) : Store :=
  { s with snapshotBatch := s.snapshotBatch ++ batch }

/-- Issue a sequence of batches against the store. -/
def storeWriteAll (s : Store) (batches : List (List StoreOp)) : Store :=
  batches.foldl storeWrite s

/-- Modelled from the spec: Store.Prepare, moving the entire pending buffer
into the flushing buffer and resetting the pending buffer. -/
def storePrepare (s : Store) : Store :=
  { s with flushingBatch := s.snapshotBatch, snapshotBatch := [], status := .prepared }

/-- Modelled from the spec: Store.CancelPrepare, merging the flushing buffer
back in front of the pending buffer and clearing the flushing buffer. -/
def storeCancelPrepare (s : Store) : Store :=
  { s with snapshotBatch := s.flushingBatch ++ s.snapshotBatch,
           flushingBatch := [], status := .idle }

/-- Modelled from the spec: Store.RedoLog, serializing the flushing buffer;
callable only in the Prepared state; does not mutate the store. -/
def storeRedoLog (s : Store) : Option Bytes :=
  if s.status = .prepared then some (encodeStoreOps s.flushingBatch) else none

/-- Modelled from the spec: Store.Commit, applying the flushing buffer to
the underlying engine as one atomic engine batch. -/
def storeCommit (s : Store) : Store :=
  { s with engine := applyOps s.engine s.flushingBatch, status := .committed }

/-- Modelled from the spec: Store.AfterCommit, clearing the flushing buffer. -/
def storeAfterCommit (s : Store) : Store :=
  { s with flushingBatch := [], status := .idle }

/-- Modelled from the spec: Store.PatchRedoLog, deserializing a redo-log
payload and applying it directly to the underlying engine, bypassing the
staging buffers; fails on a malformed payload. -/
def storePatchRedoLog (s : Store) (bs : Bytes) : Option Store :=
  match decodeStoreOps bs with
  | none => none
  | some ops => some { s with engine := applyOps s.engine ops }

theorem readChunk_of_encode (k rest : Bytes) :
    readChunk (k.length :: (k ++ rest)) = some (k, rest) := by
  show (if k.length ≤ (k ++ rest).length then
      some ((k ++ rest).take k.length, (k ++ rest).drop k.length) else none) = _
  rw [if_pos (by simp), List.take_left, List.drop_left]

/-- Deserialization inverts serialization, with any fuel at least the
number of operations. -/
theorem decodeStoreOpsAux_encode (ops : List StoreOp) :
    ∀ fuel, ops.length ≤ fuel → decodeStoreOpsAux fuel (encodeStoreOps ops) = some ops := by
  induction ops with
  | nil =>
    intro fuel _
    cases fuel <;> rfl
  | cons op rest ih =>
    intro fuel hf
    match fuel with
    | 0 => simp at hf
    | fuel + 1 =>
      have hrest : rest.length ≤ fuel := by
        simp only [List.length_cons] at hf; omega
      cases op with
      | put k v =>
        show decodeStoreOpsAux (fuel + 1)
          ((1 :: (k.length :: k) ++ (v.length :: v)) ++ encodeStoreOps rest) = _
        have : ((1 :: (k.length :: k) ++ (v.length :: v)) ++ encodeStoreOps rest) =
            1 :: (k.length :: (k ++ ((v.length :: v) ++ encodeStoreOps rest))) := by
          simp
        rw [this]
        show (match readChunk (k.length :: (k ++ ((v.length :: v) ++ encodeStoreOps rest))) with
          | none => none
          | some (k', r1) =>
            match readChunk r1 with
            | none => none
            | some (v', r2) =>
              match decodeStoreOpsAux fuel r2 with
              | none => none
              | some ops => some (KVOp.put k' v' :: ops)) = _
        rw [readChunk_of_encode k ((v.length :: v) ++ encodeStoreOps rest)]
        show (match readChunk (v.length :: (v ++ encodeStoreOps rest)) with
          | none => none
          | some (v', r2) =>
            match decodeStoreOpsAux fuel r2 with
            | none => none
            | some ops => some (KVOp.put k v' :: ops)) = _
        rw [readChunk_of_encode v (encodeStoreOps rest)]
        show (match decodeStoreOpsAux fuel (encodeStoreOps rest) with
          | none => none
          | some ops => some (KVOp.put k v :: ops)) = _
        rw [ih fuel hrest]
      | del k =>
        show decodeStoreOpsAux (fuel + 1)
          ((2 :: (k.length :: k)) ++ encodeStoreOps rest) = _
        have : ((2 :: (k.length :: k)) ++ encodeStoreOps rest) =
            2 :: (k.length :: (k ++ encodeStoreOps rest)) := by simp
        rw [this]
        show (match readChunk (k.length :: (k ++ encodeStoreOps rest)) with
          | none => none
          | some (k', r1) =>
            match decodeStoreOpsAux fuel r1 with
            | none => none
            | some ops => some (KVOp.del k' :: ops)) = _
        rw [readChunk_of_encode k (encodeStoreOps rest)]
        show (match decodeStoreOpsAux fuel (encodeStoreOps rest) with
          | none => none
          | some ops => some (KVOp.del k :: ops)) = _
        rw [ih fuel hrest]

theorem encodeStoreOps_length_ge (ops : List StoreOp) :
    ops.length ≤ (encodeStoreOps ops).length := by
  induction ops with
  | nil => simp [encodeStoreOps]
  | cons op rest ih =>
    show rest.length + 1 ≤ (encodeStoreOp op ++ encodeStoreOps rest).length
    rw [List.length_append]
    have : 1 ≤ (encodeStoreOp op).length := by
      cases op <;> simp [encodeStoreOp]
    omega

/-- Round trip: loading a dumped batch returns the batch. -/
theorem decodeStoreOps_encode (ops : List StoreOp) :
    decodeStoreOps (encodeStoreOps ops) = some ops :=
  decodeStoreOpsAux_encode ops (encodeStoreOps ops).length (encodeStoreOps_length_ge ops)

theorem storeWriteAll_spec (s : Store) (ws : List (List StoreOp)) :
    storeWriteAll s ws = { s with snapshotBatch := s.snapshotBatch ++ ws.flatten } := by
  induction ws generalizing s with
  | nil => simp [storeWriteAll]
  | cons w rest ih =>
    show storeWriteAll (storeWrite s w) rest = _
    rw [ih]
    simp [storeWrite]

/-- C1: for a store in the Prepared state, the bytes returned by redoLog,
replayed via patchRedoLog against any store holding a copy of the
pre-commit engine state, succeed and produce exactly the engine state
that a direct commit produces. -/
theorem redoLog_patch_replays_commit (s t : Store) (bs : Bytes) (k : Bytes)
    (hlog : storeRedoLog s = some bs) (hengine : t.engine = s.engine) :
    (storePatchRedoLog t bs).map (fun u => u.engine k) =
      some ((storeCommit s).engine k) := by
  unfold storeRedoLog at hlog
  by_cases hs : s.status = .prepared
  · rw [if_pos hs] at hlog
    have hbs : bs = encodeStoreOps s.flushingBatch := by
      have := (Option.some.injEq _ _).mp hlog
      exact this.symm
    rw [hbs]
    unfold storePatchRedoLog
    rw [decodeStoreOps_encode]
    show some (applyOps t.engine s.flushingBatch k) = _
    rw [hengine]
    rfl
  · rw [if_neg hs] at hlog
    exact absurd hlog (by simp)

/-- C1 witness: a concrete prepared store replayed against itself. -/
theorem redoLog_patch_replays_commit_witness :
    storeRedoLog ⟨[], [KVOp.put [1] [2]], fun _ => none, .prepared⟩ = some [1, 1, 1, 1, 2] ∧
    (storePatchRedoLog ⟨[], [KVOp.put [1] [2]], fun _ => none, .prepared⟩
        [1, 1, 1, 1, 2]).map (fun u => u.engine [1]) =
      some ((storeCommit ⟨[], [KVOp.put [1] [2]], fun _ => none, .prepared⟩).engine [1]) :=
  ⟨rfl, redoLog_patch_replays_commit
    ⟨[], [KVOp.put [1] [2]], fun _ => none, .prepared⟩
    ⟨[], [KVOp.put [1] [2]], fun _ => none, .prepared⟩
    [1, 1, 1, 1, 2] [1] rfl rfl⟩

/-- C2: starting from an idle store with an empty flushing buffer, after any
sequence of writes a prepare followed by cancelPrepare restores the store
exactly (empty flushing buffer, all buffered operations back in the pending
buffer), and a subsequent prepare and commit yields the engine state of
applying all the writes as one single buffer. -/
theorem cancelPrepare_neutral (s : Store) (ws : List (List StoreOp)) (k : Bytes)
    (hflush : s.flushingBatch = []) (hstatus : s.status = .idle) :
    storeCancelPrepare (storePrepare (storeWriteAll s ws)) = storeWriteAll s ws ∧
    (storeCancelPrepare (storePrepare (storeWriteAll s ws))).flushingBatch = [] ∧
    (storeCancelPrepare (storePrepare (storeWriteAll s ws))).snapshotBatch =
      s.snapshotBatch ++ ws.flatten ∧
    (storeCommit (storePrepare (storeCancelPrepare
        (storePrepare (storeWriteAll s ws))))).engine k =
      applyOps s.engine (s.snapshotBatch ++ ws.flatten) k := by
  rw [storeWriteAll_spec]
  refine ⟨?_, ?_, ?_, ?_⟩
  · simp [storePrepare, storeCancelPrepare, hflush, hstatus]
  · rfl
  · simp [storePrepare, storeCancelPrepare]
  · simp [storePrepare, storeCancelPrepare, storeCommit]

/-- C2 witness: a concrete idle store with two written batches. -/
theorem cancelPrepare_neutral_witness :
    storeCancelPrepare (storePrepare (storeWriteAll
        ⟨[], [], fun _ => none, .idle⟩ [[KVOp.put [1] [2]], [KVOp.del [1]]])) =
      storeWriteAll ⟨[], [], fun _ => none, .idle⟩
        [[KVOp.put [1] [2]], [KVOp.del [1]]] ∧
    (storeCancelPrepare (storePrepare (storeWriteAll
        ⟨[], [], fun _ => none, .idle⟩
        [[KVOp.put [1] [2]], [KVOp.del [1]]]))).flushingBatch = [] ∧
    (storeCancelPrepare (storePrepare (storeWriteAll
        ⟨[], [], fun _ => none, .idle⟩
        [[KVOp.put [1] [2]], [KVOp.del [1]]]))).snapshotBatch =
      [] ++ ([[KVOp.put [1] [2]], [KVOp.del [1]]] : List (List StoreOp)).flatten ∧
    (storeCommit (storePrepare (storeCancelPrepare (storePrepare (storeWriteAll
        ⟨[], [], fun _ => none, .idle⟩
        [[KVOp.put [1] [2]], [KVOp.del [1]]]))))).engine [1] =
      applyOps (fun _ => none)
        ([] ++ ([[KVOp.put [1] [2]], [KVOp.del [1]]] : List (List StoreOp)).flatten) [1] :=
  cancelPrepare_neutral ⟨[], [], fun _ => none, .idle⟩
    [[KVOp.put [1] [2]], [KVOp.del [1]]] [1] rfl rfl

/-
The block log (BlockDB, ledger/chain/block/block_db.go) over the Location
and Segment Store (the chain_file_manager package, modelled from spec 4.1).
-/

/-- A location in the segmented block log: segment id and byte offset
(chain_file_manager.Location). -/
structure Location where
  segId : Nat
  offset : Nat
  deriving DecidableEq, Repr

/-- Strict total order on locations: by segment id, then by offset. -/
def locLt (a b : Location) : Prop :=
  a.segId < b.segId ∨ (a.segId = b.segId ∧ a.offset < b.offset)

instance (a b : Location) : Decidable (locLt a b) := by
  unfold locLt; infer_instance

/-- Non-strict order on locations, as a boolean (Location.Compare ≤ 0). -/
def locLeB (a b : Location) : Bool :=
  decide (a.segId < b.segId) || (decide (a.segId = b.segId) && decide (a.offset ≤ b.offset))

theorem locLt_trans {a b c : Location} (h1 : locLt a b) (h2 : locLt b c) : locLt a c := by
  unfold locLt at *
  rcases h1 with h1 | ⟨h1a, h1b⟩ <;> rcases h2 with h2 | ⟨h2a, h2b⟩ <;>
    first
      | exact Or.inl (by omega)
      | exact Or.inr (by omega)

theorem locLt_irrefl (a : Location) : ¬ locLt a a := by
  unfold locLt; omega

theorem locLt_ne {a b : Location} (h : locLt a b) : a ≠ b := by
  intro he
  rw [he] at h
  exact locLt_irrefl b h

/-- Modelled from the spec: the Location and Segment Store
(chain_file_manager.FileManager, not among the shown sources).  fileSize
is the fixed segment capacity, head the location of the next byte to
write, data the framed records in write order, each with the location of
its first byte; the store adds a length frame (4 bytes) to each record,
which the model reflects in the offset arithmetic only. -/
structure Fm where
  fileSize : Nat
  head : Location
  data : List (Location × Bytes)

/-- Modelled from the spec: fm.Write, appending one record; a write whose
frame would exceed the current segment capacity starts a new segment.
Returns the updated store and the location of the record's first byte. -/
def fmWrite (fm : Fm) (buf : Bytes) : Fm × Location :=
  let framedLen := 4 + buf.length
  let loc := if fm.fileSize < fm.head.offset + framedLen then
      Location.mk (fm.head.segId + 1) 0
    else fm.head
  ({ fm with head := ⟨loc.segId, loc.offset + framedLen⟩,
             data := fm.data ++ [(loc, buf)] }, loc)

/-- Find the record stored at a location, returning its bytes with the
location of the record written right after it (none when it is the last). -/
def fmFind : List (Location × Bytes) → Location → Option (Bytes × Option Location)
  | [], _ => none
  | (l, b) :: rest, loc =>
    if l = loc then some (b, (rest.head?).map Prod.fst)
    else fmFind rest loc

/-- Modelled from the spec: fm.Read at a location: the record's bytes and
the next location to read (the write head after the last record); a
location holding no record reads as empty, the end-of-data condition. -/
def fmRead (fm : Fm) (loc : Location) : Bytes × Location :=
  match fmFind fm.data loc with
  | some (b, some next) => (b, next)
  | some (b, none) => (b, fm.head)
  | none => ([], loc)

/-- Modelled from the spec: fm.LatestLocation, the current write head. -/
def fmLatestLocation (fm : Fm) : Location := fm.head

/-- Well-formedness of the segment store: record locations in write order,
followed by the write head, are strictly increasing.  Every write
sequence from an empty store maintains this. -/
def fmWF (fm : Fm) : Prop :=
  List.Chain' locLt (fm.data.map Prod.fst ++ [fm.head])

theorem fmWrite_fileSize (fm : Fm) (buf : Bytes) :
    (fmWrite fm buf).1.fileSize = fm.fileSize := rfl

theorem fmWrite_data (fm : Fm) (buf : Bytes) :
    (fmWrite fm buf).1.data = fm.data ++ [((fmWrite fm buf).2, buf)] := rfl

theorem fmWrite_head_lt (fm : Fm) (buf : Bytes) :
    locLt (fmWrite fm buf).2 (fmWrite fm buf).1.head := by
  unfold fmWrite
  by_cases h : fm.fileSize < fm.head.offset + (4 + buf.length) <;>
    simp [h, locLt]

theorem fmWrite_loc_ge (fm : Fm) (buf : Bytes) :
    (fmWrite fm buf).2 = fm.head ∨ locLt fm.head (fmWrite fm buf).2 := by
  unfold fmWrite
  by_cases h : fm.fileSize < fm.head.offset + (4 + buf.length)
  · right; simp [h, locLt]
  · left; simp [h]

theorem fmWrite_WF (fm : Fm) (buf : Bytes) (h : fmWF fm) : fmWF (fmWrite fm buf).1 := by
  unfold fmWF at *
  rw [fmWrite_data fm buf]
  have hshape : ((fm.data ++ [((fmWrite fm buf).2, buf)]).map Prod.fst ++
      [(fmWrite fm buf).1.head]) =
      fm.data.map Prod.fst ++ [(fmWrite fm buf).2, (fmWrite fm buf).1.head] := by
    simp
  rw [hshape]
  rw [List.chain'_append] at h ⊢
  refine ⟨h.1, ?_, ?_⟩
  · have h1 := fmWrite_head_lt fm buf
    simp [h1]
  · intro x hx y hy
    have h3 := h.2.2 x hx fm.head (by simp)
    have hy' : y = (fmWrite fm buf).2 := by
      simp at hy
      exact hy.symm
    subst hy'
    rcases fmWrite_loc_ge fm buf with he | hlt
    · rw [he]; exact h3
    · exact locLt_trans h3 hlt

instance : IsTrans Location locLt :=
  ⟨fun _ _ _ h1 h2 => locLt_trans h1 h2⟩

/-- In a well-formed store the locations are pairwise increasing. -/
theorem fmWF_pairwise (fm : Fm) (h : fmWF fm) :
    List.Pairwise locLt (fm.data.map Prod.fst ++ [fm.head]) := by
  unfold fmWF at h
  exact List.chain'_iff_pairwise.mp h

/-- Looking up the first record of a suffix whose location is absent from
the records before it finds exactly that record and the location of the
record after it. -/
theorem fmFind_append (pre : List (Location × Bytes)) (l : Location) (b : Bytes)
    (rest : List (Location × Bytes)) (hne : ∀ p ∈ pre, p.1 ≠ l) :
    fmFind (pre ++ (l, b) :: rest) l = some (b, (rest.head?).map Prod.fst) := by
  induction pre with
  | nil =>
    show (if l = l then some (b, (rest.head?).map Prod.fst) else fmFind rest l) = _
    rw [if_pos rfl]
  | cons p tl ih =>
    have hp : p.1 ≠ l := hne p (by simp)
    show fmFind ((p.1, p.2) :: (tl ++ (l, b) :: rest)) l = _
    show (if p.1 = l then some (p.2, ((tl ++ (l, b) :: rest).head?).map Prod.fst)
      else fmFind (tl ++ (l, b) :: rest) l) = _
    rw [if_neg hp]
    exact ih (fun q hq => hne q (by simp [hq]))

/-- Reading at the location of any record of a well-formed store returns
that record's bytes and the location of the record after it (the write
head when it is the last record). -/
theorem fmRead_at (fm : Fm) (pre rest : List (Location × Bytes)) (l : Location) (b : Bytes)
    (hWF : fmWF fm) (hdata : fm.data = pre ++ (l, b) :: rest) :
    fmRead fm l = (b, match rest.head? with
      | some p => p.1
      | none => fm.head) := by
  have hpw := fmWF_pairwise fm hWF
  rw [hdata] at hpw
  have hne : ∀ p ∈ pre, p.1 ≠ l := by
    intro p hp
    have hmem : p.1 ∈ (pre.map Prod.fst : List Location) := List.mem_map_of_mem _ hp
    have hlt : locLt p.1 l := by
      have hsplit : ((pre ++ (l, b) :: rest).map Prod.fst ++ [fm.head]) =
          pre.map Prod.fst ++ (l :: (rest.map Prod.fst ++ [fm.head])) := by simp
      rw [hsplit] at hpw
      have := (List.pairwise_append.mp hpw).2.2 p.1 hmem l (by simp)
      exact this
    exact locLt_ne hlt
  unfold fmRead
  rw [hdata, fmFind_append pre l b rest hne]
  cases rest with
  | nil => rfl
  | cons q qs => rfl

/-- One-byte record type tag for snapshot blocks (chain_block constant;
the tag values are modelled as distinct naturals). -/
def BlockTypeSnapshotBlock : Nat := 1

/-- One-byte record type tag for account blocks (chain_block constant). -/
def BlockTypeAccountBlock : Nat := 2

/-- Modelled from the spec: an account block as the block log and the state
writer see it.  Domain payload encoding is external (spec section 1
excludes it), so the model keeps the hash and an opaque body. -/
structure AccountBlockB where
  hash : Hashv
  body : Bytes
  deriving DecidableEq, Repr

/-- Modelled from the spec: a snapshot block: hash, confirmed height and an
opaque body. -/
structure SnapshotBlockB where
  hash : Hashv
  height : Nat
  body : Bytes
  deriving DecidableEq, Repr

/-- Modelled from the spec: AccountBlock.Serialize, an injective encoding. -/
def serializeAccountBlock (ab : AccountBlockB) : Bytes := ab.hash :: ab.body

/-- Modelled from the spec: AccountBlock.Deserialize. -/
def deserializeAccountBlock : Bytes → Option AccountBlockB
  | [] => none
  | h :: rest => some ⟨h, rest⟩

/-- Modelled from the spec: SnapshotBlock.Serialize, an injective encoding. -/
def serializeSnapshotBlock (sb : SnapshotBlockB) : Bytes :=
  sb.hash :: sb.height :: sb.body

/-- Modelled from the spec: SnapshotBlock.Deserialize. -/
def deserializeSnapshotBlock : Bytes → Option SnapshotBlockB
  | h :: ht :: rest => some ⟨h, ht, rest⟩
  | _ => none

/-- Modelled from the spec: the snappy block codec, as an invertible
length-prefixed coding (the real codec is an external library). -/
def snappyEncode (b : Bytes) : Bytes := b.length :: b

/-- Modelled from the spec: snappy decoding; fails on malformed input. -/
def snappyDecode : Bytes → Option Bytes
  | [] => none
  | n :: rest => if rest.length = n then some rest else none

theorem snappyDecode_encode (b : Bytes) : snappyDecode (snappyEncode b) = some b := by
  simp [snappyEncode, snappyDecode]

/-- The framed record for one block: type tag then compressed payload
(makeWriteBytes in block_db.go). -/
def makeWriteBytes (blockType : Nat) (buf : Bytes) : Bytes :=
  blockType :: snappyEncode buf

/-- BlockDB (block_db.go), holding the segment store. -/
structure BlockDB where
  fm : Fm

/-- A block record of either kind, for stating layout properties. -/
inductive BlockRec where
  | ab (b : AccountBlockB)
  | sb (b : SnapshotBlockB)
  deriving DecidableEq, Repr

/-- The framed bytes the block log writes for a record. -/
def recBytes : BlockRec → Bytes
  | .ab b => makeWriteBytes BlockTypeAccountBlock (serializeAccountBlock b)
  | .sb b => makeWriteBytes BlockTypeSnapshotBlock (serializeSnapshotBlock b)

/-- The typed unit ReadUnit decodes a record to. -/
def recUnit : BlockRec → Option SnapshotBlockB × Option AccountBlockB
  | .ab b => (none, some b)
  | .sb b => (some b, none)

/-- The account-block loop of BlockDB.Write: append each account block's
framed record and collect its hash with the returned location. -/
def blockDBWriteABs : Fm → List AccountBlockB → Fm × List (Hashv × Location)
  | fm, [] => (fm, [])
  | fm, ab :: rest =>
    let r := fmWrite fm (makeWriteBytes BlockTypeAccountBlock (serializeAccountBlock ab))
    let r2 := blockDBWriteABs r.1 rest
    (r2.1, (ab.hash, r.2) :: r2.2)

/-- BlockDB.Write of one snapshot chunk: every account block first, then
the snapshot block; returns the per-account-block hash-to-location map
and the snapshot block's location (block_db.go lines 80-110). -/
def blockDBWrite (bDB : BlockDB) (sb : SnapshotBlockB) (accountBlocks : List AccountBlockB) :
    BlockDB × List (Hashv × Location) × Location :=
  let r := blockDBWriteABs bDB.fm accountBlocks
  let r2 := fmWrite r.1 (makeWriteBytes BlockTypeSnapshotBlock (serializeSnapshotBlock sb))
  (⟨r2.1⟩, r.2, r2.2)

/-- BlockDB.ReadUnit: read one record, snappy-decode the payload after the
type tag, and deserialize by tag; an empty read is end-of-data, an
unrecognized tag yields no block (block_db.go lines 147-174). -/
def blockDBReadUnit (bDB : BlockDB) (loc : Location) :
    Except String (Option SnapshotBlockB × Option AccountBlockB × Location) :=
  match fmRead bDB.fm loc with
  | ([], next) => .ok (none, none, next)
  | (t :: rest, next) =>
    match snappyDecode rest with
    | none => .error "snappy decode error"
    | some sBuf =>
      if t = BlockTypeSnapshotBlock then
        match deserializeSnapshotBlock sBuf with
        | none => .error "snapshot block deserialize error"
        | some sb => .ok (some sb, none, next)
      else if t = BlockTypeAccountBlock then
        match deserializeAccountBlock sBuf with
        | none => .error "account block deserialize error"
        | some ab => .ok (none, some ab, next)
      else .ok (none, none, next)

/-- Iterated sequential ReadUnit: n records starting at a location. -/
def blockDBReadUnits (bDB : BlockDB) (loc : Location) :
    Nat → Except String (List (Option SnapshotBlockB × Option AccountBlockB) × Location)
  | 0 => .ok ([], loc)
  | n + 1 =>
    match blockDBReadUnit bDB loc with
    | .error e => .error e
    | .ok (sb, ab, next) =>
      match blockDBReadUnits bDB next n with
      | .error e => .error e
      | .ok (units, fin) => .ok ((sb, ab) :: units, fin)

theorem blockDBWriteABs_spec (abs : List AccountBlockB) (fm : Fm) :
    ((blockDBWriteABs fm abs).1.data =
      fm.data ++ ((blockDBWriteABs fm abs).2.map Prod.snd).zip
        (abs.map fun ab => recBytes (.ab ab))) ∧
    (blockDBWriteABs fm abs).2.map Prod.fst = abs.map AccountBlockB.hash ∧
    (blockDBWriteABs fm abs).2.length = abs.length ∧
    (blockDBWriteABs fm abs).1.fileSize = fm.fileSize ∧
    (fmWF fm → fmWF (blockDBWriteABs fm abs).1) := by
  induction abs generalizing fm with
  | nil =>
    refine ⟨?_, rfl, rfl, rfl, fun h => h⟩
    simp [blockDBWriteABs]
  | cons ab rest ih =>
    have hrec := ih (fmWrite fm (makeWriteBytes BlockTypeAccountBlock
      (serializeAccountBlock ab))).1
    have hd := fmWrite_data fm (makeWriteBytes BlockTypeAccountBlock
      (serializeAccountBlock ab))
    refine ⟨?_, ?_, ?_, ?_, ?_⟩
    · show (blockDBWriteABs (fmWrite fm _).1 rest).1.data = _
      rw [hrec.1, hd]
      simp [blockDBWriteABs, recBytes]
    · show (_ : Hashv) :: (blockDBWriteABs (fmWrite fm _).1 rest).2.map Prod.fst = _
      rw [hrec.2.1]
      rfl
    · show (blockDBWriteABs (fmWrite fm _).1 rest).2.length + 1 = _
      rw [hrec.2.2.1]
      rfl
    · show (blockDBWriteABs (fmWrite fm _).1 rest).1.fileSize = _
      rw [hrec.2.2.2.1]
      rfl
    · intro h
      exact hrec.2.2.2.2 (fmWrite_WF fm _ h)

theorem blockDBWrite_layout_aux (bDB : BlockDB) (sb : SnapshotBlockB)
    (abs : List AccountBlockB) :
    ((blockDBWrite bDB sb abs).1.fm.data =
      bDB.fm.data ++
        (((blockDBWrite bDB sb abs).2.1.map Prod.snd ++ [(blockDBWrite bDB sb abs).2.2]).zip
          ((abs.map fun ab => recBytes (.ab ab)) ++ [recBytes (.sb sb)]))) ∧
    (blockDBWrite bDB sb abs).2.1.map Prod.fst = abs.map AccountBlockB.hash ∧
    (blockDBWrite bDB sb abs).2.1.length = abs.length ∧
    (fmWF bDB.fm → fmWF (blockDBWrite bDB sb abs).1.fm) := by
  have habs := blockDBWriteABs_spec abs bDB.fm
  have hd := fmWrite_data (blockDBWriteABs bDB.fm abs).1
    (makeWriteBytes BlockTypeSnapshotBlock (serializeSnapshotBlock sb))
  have hlen : ((blockDBWriteABs bDB.fm abs).2.map Prod.snd).length =
      (abs.map fun ab => recBytes (.ab ab)).length := by
    rw [List.length_map, List.length_map, habs.2.2.1]
  have e1 : (blockDBWrite bDB sb abs).1.fm =
      (fmWrite (blockDBWriteABs bDB.fm abs).1
        (makeWriteBytes BlockTypeSnapshotBlock (serializeSnapshotBlock sb))).1 := rfl
  have e2 : (blockDBWrite bDB sb abs).2.1 = (blockDBWriteABs bDB.fm abs).2 := rfl
  have e3 : (blockDBWrite bDB sb abs).2.2 =
      (fmWrite (blockDBWriteABs bDB.fm abs).1
        (makeWriteBytes BlockTypeSnapshotBlock (serializeSnapshotBlock sb))).2 := rfl
  rw [e1, e2, e3]
  refine ⟨?_, habs.2.1, habs.2.2.1, ?_⟩
  · rw [hd, habs.1]
    rw [List.zip_append hlen]
    rw [List.append_assoc]
    rfl
  · intro h
    exact fmWrite_WF _ _ (habs.2.2.2.2 h)

/-- C6: BlockDB.Write appends every account block record, in order and each
paired with its returned Location, before the snapshot block record, so
the chunk's terminal record in the log is the snapshot block; and the
returned map holds exactly one Location per account block, keyed by that
block's hash, together with the snapshot block's Location. -/
theorem blockDBWrite_chunk_layout (bDB : BlockDB) (sb : SnapshotBlockB)
    (abs : List AccountBlockB) :
    ((blockDBWrite bDB sb abs).1.fm.data =
      bDB.fm.data ++
        (((blockDBWrite bDB sb abs).2.1.map Prod.snd ++ [(blockDBWrite bDB sb abs).2.2]).zip
          ((abs.map fun ab => recBytes (.ab ab)) ++ [recBytes (.sb sb)]))) ∧
    (blockDBWrite bDB sb abs).2.1.map Prod.fst = abs.map AccountBlockB.hash ∧
    (blockDBWrite bDB sb abs).2.1.length = abs.length ∧
    ((blockDBWrite bDB sb abs).1.fm.data.map Prod.snd).getLast? =
      some (recBytes (.sb sb)) := by
  have h := blockDBWrite_layout_aux bDB sb abs
  refine ⟨h.1, h.2.1, h.2.2.1, ?_⟩
  rw [h.1]
  have hlen : ((blockDBWrite bDB sb abs).2.1.map Prod.snd).length =
      (abs.map fun ab => recBytes (.ab ab)).length := by
    rw [List.length_map, List.length_map, h.2.2.1]
  rw [List.zip_append hlen]
  show ((bDB.fm.data ++
    (_ ++ [((blockDBWrite bDB sb abs).2.2, recBytes (.sb sb))])).map Prod.snd).getLast? = _
  rw [List.map_append, List.map_append]
  rw [← List.append_assoc]
  show (_ ++ [recBytes (.sb sb)]).getLast? = _
  exact List.getLast?_concat _

/-- The location sequential reading starts from: the first of the list,
or the given default when the list is empty. -/
def locsStart : List Location → Location → Location
  | [], d => d
  | l :: _, _ => l

theorem readUnit_recBytes (bDB : BlockDB) (loc : Location) (b : BlockRec) (next : Location)
    (hread : fmRead bDB.fm loc = (recBytes b, next)) :
    blockDBReadUnit bDB loc = .ok ((recUnit b).1, (recUnit b).2, next) := by
  unfold blockDBReadUnit
  rw [hread]
  cases b with
  | ab x =>
    show (match snappyDecode (snappyEncode (serializeAccountBlock x)) with
      | none => Except.error "snappy decode error"
      | some sBuf =>
        if BlockTypeAccountBlock = BlockTypeSnapshotBlock then
          match deserializeSnapshotBlock sBuf with
          | none => Except.error "snapshot block deserialize error"
          | some sb => Except.ok (some sb, none, next)
        else if BlockTypeAccountBlock = BlockTypeAccountBlock then
          match deserializeAccountBlock sBuf with
          | none => Except.error "account block deserialize error"
          | some ab => Except.ok (none, some ab, next)
        else Except.ok (none, none, next)) = _
    rw [snappyDecode_encode]
    show (if BlockTypeAccountBlock = BlockTypeSnapshotBlock then _
      else if BlockTypeAccountBlock = BlockTypeAccountBlock then
        match deserializeAccountBlock (serializeAccountBlock x) with
        | none => Except.error "account block deserialize error"
        | some ab => Except.ok (none, some ab, next)
      else Except.ok (none, none, next)) = _
    rw [if_neg (by simp [BlockTypeAccountBlock, BlockTypeSnapshotBlock]), if_pos rfl]
    rfl
  | sb x =>
    show (match snappyDecode (snappyEncode (serializeSnapshotBlock x)) with
      | none => Except.error "snappy decode error"
      | some sBuf =>
        if BlockTypeSnapshotBlock = BlockTypeSnapshotBlock then
          match deserializeSnapshotBlock sBuf with
          | none => Except.error "snapshot block deserialize error"
          | some sb => Except.ok (some sb, none, next)
        else if BlockTypeSnapshotBlock = BlockTypeAccountBlock then
          match deserializeAccountBlock sBuf with
          | none => Except.error "account block deserialize error"
          | some ab => Except.ok (none, some ab, next)
        else Except.ok (none, none, next)) = _
    rw [snappyDecode_encode]
    show (if BlockTypeSnapshotBlock = BlockTypeSnapshotBlock then
        match deserializeSnapshotBlock (serializeSnapshotBlock x) with
        | none => Except.error "snapshot block deserialize error"
        | some sb => Except.ok (some sb, none, next)
      else if BlockTypeSnapshotBlock = BlockTypeAccountBlock then
        match deserializeAccountBlock (serializeSnapshotBlock x) with
        | none => Except.error "account block deserialize error"
        | some ab => Except.ok (none, some ab, next)
      else Except.ok (none, none, next)) = _
    rw [if_pos rfl]
    rfl

/-- Sequentially reading the records of a trailing region of a well-formed
store decodes them in order and ends at the write head. -/
theorem readUnits_chain (blocks : List BlockRec) :
    ∀ (locs : List Location) (pre : List (Location × Bytes)) (fmX : Fm),
    fmWF fmX → locs.length = blocks.length →
    fmX.data = pre ++ locs.zip (blocks.map recBytes) →
    blockDBReadUnits ⟨fmX⟩ (locsStart locs fmX.head) blocks.length =
      .ok (blocks.map recUnit, fmX.head) := by
  induction blocks with
  | nil =>
    intro locs pre fmX hWF hlen hdata
    have : locs = [] := List.length_eq_zero.mp hlen
    subst this
    rfl
  | cons b btl ih =>
    intro locs pre fmX hWF hlen hdata
    match locs with
    | [] => simp at hlen
    | l :: ltl =>
      have hlen' : ltl.length = btl.length := by
        simp at hlen; exact hlen
      have hdata' : fmX.data = pre ++ (l, recBytes b) :: ltl.zip (btl.map recBytes) := by
        rw [hdata]; rfl
      have hnext : fmRead fmX l = (recBytes b,
          match (ltl.zip (btl.map recBytes)).head? with
          | some p => p.1
          | none => fmX.head) :=
        fmRead_at fmX pre (ltl.zip (btl.map recBytes)) l (recBytes b) hWF hdata'
      have hnexteq : (match (ltl.zip (btl.map recBytes)).head? with
          | some p => p.1
          | none => fmX.head) = locsStart ltl fmX.head := by
        match ltl, btl, hlen' with
        | [], [], _ => rfl
        | l' :: _, b' :: _, _ => rfl
        | [], b' :: _, hl => simp at hl
        | l' :: _, [], hl => simp at hl
      rw [hnexteq] at hnext
      have hunit := readUnit_recBytes ⟨fmX⟩ l b (locsStart ltl fmX.head) hnext
      have hrest := ih ltl (pre ++ [(l, recBytes b)]) fmX hWF hlen'
        (by rw [hdata']; simp)
      show blockDBReadUnits ⟨fmX⟩ l (btl.length + 1) = _
      show (match blockDBReadUnit ⟨fmX⟩ l with
        | .error e => Except.error e
        | .ok (sb, ab, next) =>
          match blockDBReadUnits ⟨fmX⟩ next btl.length with
          | .error e => Except.error e
          | .ok (units, fin) => Except.ok ((sb, ab) :: units, fin)) = _
      rw [hunit]
      show (match blockDBReadUnits ⟨fmX⟩ (locsStart ltl fmX.head) btl.length with
        | Except.error e => Except.error e
        | Except.ok (units, fin) =>
          Except.ok (((recUnit b).1, (recUnit b).2) :: units, fin)) = _
      rw [hrest]
      rfl

theorem blockDBWrite_fm_WF (bDB : BlockDB) (sb : SnapshotBlockB)
    (abs : List AccountBlockB) (h : fmWF bDB.fm) :
    fmWF (blockDBWrite bDB sb abs).1.fm :=
  (blockDBWrite_layout_aux bDB sb abs).2.2.2 h

/-- C7: after writing a chunk of N block records, sequentially reading N
records with ReadUnit from the first record's Location returns exactly the
written blocks, in order, each decoded from its type tag and
snappy-compressed payload back to the identical block, ending at the log
head. -/
theorem blockDB_write_read_roundtrip (bDB : BlockDB) (sb : SnapshotBlockB)
    (abs : List AccountBlockB) (hWF : fmWF bDB.fm) :
    blockDBReadUnits (blockDBWrite bDB sb abs).1
      (locsStart ((blockDBWrite bDB sb abs).2.1.map Prod.snd ++ [(blockDBWrite bDB sb abs).2.2])
        (blockDBWrite bDB sb abs).1.fm.head)
      (abs.length + 1) =
    .ok ((abs.map fun ab => recUnit (.ab ab)) ++ [recUnit (.sb sb)],
         (blockDBWrite bDB sb abs).1.fm.head) := by
  have h := blockDBWrite_layout_aux bDB sb abs
  have hWF' := blockDBWrite_fm_WF bDB sb abs hWF
  have hblocks : ((abs.map BlockRec.ab) ++ [BlockRec.sb sb]).map recBytes =
      (abs.map fun ab => recBytes (.ab ab)) ++ [recBytes (.sb sb)] := by
    simp
  have hlen : ((blockDBWrite bDB sb abs).2.1.map Prod.snd ++
      [(blockDBWrite bDB sb abs).2.2]).length =
      ((abs.map BlockRec.ab) ++ [BlockRec.sb sb]).length := by
    simp [h.2.2.1]
  have hdata : (blockDBWrite bDB sb abs).1.fm.data =
      bDB.fm.data ++
        (((blockDBWrite bDB sb abs).2.1.map Prod.snd ++ [(blockDBWrite bDB sb abs).2.2]).zip
          (((abs.map BlockRec.ab) ++ [BlockRec.sb sb]).map recBytes)) := by
    rw [hblocks]; exact h.1
  have hmain := readUnits_chain ((abs.map BlockRec.ab) ++ [BlockRec.sb sb])
    ((blockDBWrite bDB sb abs).2.1.map Prod.snd ++ [(blockDBWrite bDB sb abs).2.2])
    bDB.fm.data (blockDBWrite bDB sb abs).1.fm hWF' hlen hdata
  have hcount : ((abs.map BlockRec.ab) ++ [BlockRec.sb sb]).length = abs.length + 1 := by
    simp
  rw [hcount] at hmain
  have hunits : ((abs.map BlockRec.ab) ++ [BlockRec.sb sb]).map recUnit =
      (abs.map fun ab => recUnit (.ab ab)) ++ [recUnit (.sb sb)] := by
    simp
  rw [hunits] at hmain
  have hbdb : (⟨(blockDBWrite bDB sb abs).1.fm⟩ : BlockDB) = (blockDBWrite bDB sb abs).1 := rfl
  rw [hbdb] at hmain
  exact hmain

/-- C7 witness: two account blocks and a snapshot block written across a
segment boundary, read back in order. -/
theorem blockDB_write_read_roundtrip_witness :
    blockDBReadUnits
      (blockDBWrite ⟨⟨20, ⟨0, 0⟩, []⟩⟩ ⟨200, 9, []⟩ [⟨100, [7]⟩, ⟨101, [8]⟩]).1
      (locsStart
        ((blockDBWrite ⟨⟨20, ⟨0, 0⟩, []⟩⟩ ⟨200, 9, []⟩
            [⟨100, [7]⟩, ⟨101, [8]⟩]).2.1.map Prod.snd ++
          [(blockDBWrite ⟨⟨20, ⟨0, 0⟩, []⟩⟩ ⟨200, 9, []⟩ [⟨100, [7]⟩, ⟨101, [8]⟩]).2.2])
        (blockDBWrite ⟨⟨20, ⟨0, 0⟩, []⟩⟩ ⟨200, 9, []⟩
          [⟨100, [7]⟩, ⟨101, [8]⟩]).1.fm.head)
      (([⟨100, [7]⟩, ⟨101, [8]⟩] : List AccountBlockB).length + 1) =
    .ok ((([⟨100, [7]⟩, ⟨101, [8]⟩] : List AccountBlockB).map fun ab => recUnit (.ab ab)) ++
          [recUnit (.sb ⟨200, 9, []⟩)],
         (blockDBWrite ⟨⟨20, ⟨0, 0⟩, []⟩⟩ ⟨200, 9, []⟩
           [⟨100, [7]⟩, ⟨101, [8]⟩]).1.fm.head) :=
  blockDB_write_read_roundtrip ⟨⟨20, ⟨0, 0⟩, []⟩⟩ ⟨200, 9, []⟩
    [⟨100, [7]⟩, ⟨101, [8]⟩] (by simp [fmWF])

/-- A snapshot chunk as range reads assemble it: the confirming snapshot
block (absent for a trailing partial chunk) and its account blocks
(ledger.SnapshotChunk). -/
structure SnapshotChunkB where
  snapshotBlock : Option SnapshotBlockB
  accountBlocks : List AccountBlockB
  deriving DecidableEq, Repr

/-- Modelled from the spec: the framed records the segment store streams
for a range read, including the record at the end location (block_db.go
reads the end location's record separately and feeds it to the parser). -/
def fmRecordsInRange (fm : Fm) (s e : Location) : List Bytes :=
  (fm.data.filter (fun p => locLeB s p.1 && locLeB p.1 e)).map Prod.snd

/-- Modelled from the spec: the framed records from a location to the
current log head, the region PrepareRollback scans. -/
def fmRecordsFrom (fm : Fm) (s : Location) : List Bytes :=
  (fm.data.filter (fun p => locLeB s p.1)).map Prod.snd

/-- Modelled from the spec: the block file parser splitting each framed
record into its type tag and compressed payload. -/
def recordUnits (recs : List Bytes) : List (Nat × Bytes) :=
  recs.filterMap (fun b => match b with
    | [] => none
    | t :: rest => some (t, rest))

/-- BlockDB.maxLocation: clamp the end location to the latest location
(block_db.go lines 355-362). -/
def blockDBMaxLocation (bDB : BlockDB) (loc : Location) : Location :=
  if locLt (fmLatestLocation bDB.fm) loc then fmLatestLocation bDB.fm else loc

/-- One iteration of the chunk-assembly loop shared by ReadRange and
PrepareRollback: start a chunk when none is open, snappy-decode the unit,
close the chunk on a snapshot block, extend it on an account block, leave
it open on an unknown tag; any decode error aborts the read. -/
def assembleStep (acc : List SnapshotChunkB × Option SnapshotChunkB) (u : Nat × Bytes) :
    Except String (List SnapshotChunkB × Option SnapshotChunkB) :=
  let seg := acc.2.getD ⟨none, []⟩
  match snappyDecode u.2 with
  | none => .error "snappy decode error"
  | some sBuf =>
    if u.1 = BlockTypeSnapshotBlock then
      match deserializeSnapshotBlock sBuf with
      | none => .error "snapshot block deserialize error"
      | some sb => .ok (acc.1 ++ [⟨some sb, seg.accountBlocks⟩], none)
    else if u.1 = BlockTypeAccountBlock then
      match deserializeAccountBlock sBuf with
      | none => .error "account block deserialize error"
      | some ab => .ok (acc.1, some ⟨seg.snapshotBlock, seg.accountBlocks ++ [ab]⟩)
    else .ok (acc.1, some seg)

/-- The assembly loop over a unit stream. -/
def assembleUnitsAux : List (Nat × Bytes) → List SnapshotChunkB × Option SnapshotChunkB →
    Except String (List SnapshotChunkB × Option SnapshotChunkB)
  | [], acc => .ok acc
  | u :: rest, acc =>
    match assembleStep acc u with
    | .error e => .error e
    | .ok acc' => assembleUnitsAux rest acc'

/-- BlockDB.ReadRange: scan the records from the start location through the
clamped end location, assemble chunks, and append a still-open trailing
chunk (block_db.go lines 201-272). -/
def blockDBReadRange (bDB : BlockDB) (startLoc endLoc : Location) :
    Except String (List SnapshotChunkB) :=
  match assembleUnitsAux
      (recordUnits (fmRecordsInRange bDB.fm startLoc (blockDBMaxLocation bDB endLoc)))
      ([], none) with
  | .error e => .error e
  | .ok (segList, seg) => .ok (segList ++ seg.toList)

/-- BlockDB.PrepareRollback: scan everything from the location to the log
head without mutating, assembling chunks the same way (block_db.go lines
285-340). -/
def blockDBPrepareRollback (bDB : BlockDB) (loc : Location) :
    Except String (List SnapshotChunkB) :=
  match assembleUnitsAux (recordUnits (fmRecordsFrom bDB.fm loc)) ([], none) with
  | .error e => .error e
  | .ok (segList, seg) => .ok (segList ++ seg.toList)

/-- The unit stream of a run of account-block records. -/
def absUnits (abs : List AccountBlockB) : List (Nat × Bytes) :=
  abs.map (fun ab => (BlockTypeAccountBlock, snappyEncode (serializeAccountBlock ab)))

theorem assembleUnitsAux_append (us vs : List (Nat × Bytes))
    (acc : List SnapshotChunkB × Option SnapshotChunkB) :
    assembleUnitsAux (us ++ vs) acc =
      match assembleUnitsAux us acc with
      | .error e => .error e
      | .ok acc' => assembleUnitsAux vs acc' := by
  induction us generalizing acc with
  | nil => rfl
  | cons u rest ih =>
    show (match assembleStep acc u with
      | .error e => Except.error e
      | .ok acc' => assembleUnitsAux (rest ++ vs) acc') =
      match (match assembleStep acc u with
        | .error e => Except.error e
        | .ok acc2 => assembleUnitsAux rest acc2) with
      | .error e => Except.error e
      | .ok acc' => assembleUnitsAux vs acc'
    cases hstep : assembleStep acc u with
    | error e => rfl
    | ok acc' => exact ih acc'

theorem assembleUnitsAux_accounts_from (abs : List AccountBlockB) :
    ∀ (cs : List SnapshotChunkB) (seg : SnapshotChunkB),
    assembleUnitsAux (absUnits abs) (cs, some seg) =
      .ok (cs, some ⟨seg.snapshotBlock, seg.accountBlocks ++ abs⟩) := by
  induction abs with
  | nil =>
    intro cs seg
    show Except.ok (cs, some seg) = _
    simp
  | cons ab rest ih =>
    intro cs seg
    have hstep : assembleStep (cs, some seg)
        (BlockTypeAccountBlock, snappyEncode (serializeAccountBlock ab)) =
        .ok (cs, some ⟨seg.snapshotBlock, seg.accountBlocks ++ [ab]⟩) := by
      unfold assembleStep
      rw [snappyDecode_encode]
      show (if BlockTypeAccountBlock = BlockTypeSnapshotBlock then _
        else if BlockTypeAccountBlock = BlockTypeAccountBlock then
          match deserializeAccountBlock (serializeAccountBlock ab) with
          | none => Except.error "account block deserialize error"
          | some a => Except.ok (cs, some ⟨seg.snapshotBlock, seg.accountBlocks ++ [a]⟩)
        else Except.ok (cs, some seg)) = _
      rw [if_neg (by simp [BlockTypeAccountBlock, BlockTypeSnapshotBlock]), if_pos rfl]
      rfl
    show (match assembleStep (cs, some seg)
        (BlockTypeAccountBlock, snappyEncode (serializeAccountBlock ab)) with
      | .error e => Except.error e
      | .ok acc' => assembleUnitsAux (absUnits rest) acc') = _
    rw [hstep]
    show assembleUnitsAux (absUnits rest)
      (cs, some ⟨seg.snapshotBlock, seg.accountBlocks ++ [ab]⟩) = _
    rw [ih cs ⟨seg.snapshotBlock, seg.accountBlocks ++ [ab]⟩]
    rw [List.append_assoc]
    rfl

theorem assembleUnitsAux_accounts (abs : List AccountBlockB) (hne : abs ≠ [])
    (cs : List SnapshotChunkB) (seg : Option SnapshotChunkB) :
    assembleUnitsAux (absUnits abs) (cs, seg) =
      .ok (cs, some ⟨(seg.getD ⟨none, []⟩).snapshotBlock,
        (seg.getD ⟨none, []⟩).accountBlocks ++ abs⟩) := by
  match abs, hne with
  | ab :: rest, _ =>
    have hstep : assembleStep (cs, seg)
        (BlockTypeAccountBlock, snappyEncode (serializeAccountBlock ab)) =
        .ok (cs, some ⟨(seg.getD ⟨none, []⟩).snapshotBlock,
          (seg.getD ⟨none, []⟩).accountBlocks ++ [ab]⟩) := by
      unfold assembleStep
      rw [snappyDecode_encode]
      show (if BlockTypeAccountBlock = BlockTypeSnapshotBlock then _
        else if BlockTypeAccountBlock = BlockTypeAccountBlock then
          match deserializeAccountBlock (serializeAccountBlock ab) with
          | none => Except.error "account block deserialize error"
          | some a => Except.ok (cs, some ⟨(seg.getD ⟨none, []⟩).snapshotBlock,
              (seg.getD ⟨none, []⟩).accountBlocks ++ [a]⟩)
        else Except.ok (cs, some (seg.getD ⟨none, []⟩))) = _
      rw [if_neg (by simp [BlockTypeAccountBlock, BlockTypeSnapshotBlock]), if_pos rfl]
      rfl
    show (match assembleStep (cs, seg)
        (BlockTypeAccountBlock, snappyEncode (serializeAccountBlock ab)) with
      | .error e => Except.error e
      | .ok acc' => assembleUnitsAux (absUnits rest) acc') = _
    rw [hstep]
    show assembleUnitsAux (absUnits rest)
      (cs, some ⟨(seg.getD ⟨none, []⟩).snapshotBlock,
        (seg.getD ⟨none, []⟩).accountBlocks ++ [ab]⟩) = _
    rw [assembleUnitsAux_accounts_from rest cs
      ⟨(seg.getD ⟨none, []⟩).snapshotBlock, (seg.getD ⟨none, []⟩).accountBlocks ++ [ab]⟩]
    rw [List.append_assoc]
    rfl

/-- C10: when the scanned records of a range end with one or more account
blocks not followed by a snapshot block, both ReadRange and
PrepareRollback return those trailing account blocks as a final chunk
with no snapshot block, and report no error. -/
theorem readRange_trailing_partial_chunk (bDB : BlockDB) (startLoc endLoc : Location)
    (us us2 : List (Nat × Bytes)) (cs cs2 : List SnapshotChunkB)
    (abs abs2 : List AccountBlockB)
    (h1 : recordUnits (fmRecordsInRange bDB.fm startLoc (blockDBMaxLocation bDB endLoc)) =
      us ++ absUnits abs)
    (h2 : assembleUnitsAux us ([], none) = .ok (cs, none))
    (hne : abs ≠ [])
    (h3 : recordUnits (fmRecordsFrom bDB.fm startLoc) = us2 ++ absUnits abs2)
    (h4 : assembleUnitsAux us2 ([], none) = .ok (cs2, none))
    (hne2 : abs2 ≠ []) :
    blockDBReadRange bDB startLoc endLoc = .ok (cs ++ [⟨none, abs⟩]) ∧
    blockDBPrepareRollback bDB startLoc = .ok (cs2 ++ [⟨none, abs2⟩]) := by
  constructor
  · unfold blockDBReadRange
    rw [h1, assembleUnitsAux_append us (absUnits abs) ([], none), h2]
    show (match assembleUnitsAux (absUnits abs) (cs, none) with
      | .error e => Except.error e
      | .ok (segList, seg) => Except.ok (segList ++ seg.toList)) = _
    rw [assembleUnitsAux_accounts abs hne cs none]
    rfl
  · unfold blockDBPrepareRollback
    rw [h3, assembleUnitsAux_append us2 (absUnits abs2) ([], none), h4]
    show (match assembleUnitsAux (absUnits abs2) (cs2, none) with
      | .error e => Except.error e
      | .ok (segList, seg) => Except.ok (segList ++ seg.toList)) = _
    rw [assembleUnitsAux_accounts abs2 hne2 cs2 none]
    rfl

/-- A concrete block log holding one complete chunk followed by two
trailing account blocks, for the range-read witness. -/
def bDBTrailingEx : BlockDB :=
  ⟨⟨100, ⟨0, 29⟩,
    [(⟨0, 0⟩, recBytes (.ab ⟨100, [1]⟩)),
     (⟨0, 7⟩, recBytes (.sb ⟨200, 5, []⟩)),
     (⟨0, 15⟩, recBytes (.ab ⟨101, [2]⟩)),
     (⟨0, 22⟩, recBytes (.ab ⟨102, [3]⟩))]⟩⟩

/-- C10 witness: the concrete log's trailing account blocks come back as a
final chunk without a snapshot block from both range readers. -/
theorem readRange_trailing_partial_chunk_witness :
    blockDBReadRange bDBTrailingEx ⟨0, 0⟩ ⟨5, 0⟩ =
      .ok ([⟨some ⟨200, 5, []⟩, [⟨100, [1]⟩]⟩] ++ [⟨none, [⟨101, [2]⟩, ⟨102, [3]⟩]⟩]) ∧
    blockDBPrepareRollback bDBTrailingEx ⟨0, 0⟩ =
      .ok ([⟨some ⟨200, 5, []⟩, [⟨100, [1]⟩]⟩] ++ [⟨none, [⟨101, [2]⟩, ⟨102, [3]⟩]⟩]) :=
  readRange_trailing_partial_chunk bDBTrailingEx ⟨0, 0⟩ ⟨5, 0⟩
    [(BlockTypeAccountBlock, snappyEncode (serializeAccountBlock ⟨100, [1]⟩)),
     (BlockTypeSnapshotBlock, snappyEncode (serializeSnapshotBlock ⟨200, 5, []⟩))]
    [(BlockTypeAccountBlock, snappyEncode (serializeAccountBlock ⟨100, [1]⟩)),
     (BlockTypeSnapshotBlock, snappyEncode (serializeSnapshotBlock ⟨200, 5, []⟩))]
    [⟨some ⟨200, 5, []⟩, [⟨100, [1]⟩]⟩] [⟨some ⟨200, 5, []⟩, [⟨100, [1]⟩]⟩]
    [⟨101, [2]⟩, ⟨102, [3]⟩] [⟨101, [2]⟩, ⟨102, [3]⟩]
    (by rfl) (by rfl) (by simp) (by rfl) (by rfl) (by simp)

/-
The state writer (StateDB, ledger/chain/state/write.go) over the staged
store's pending batch, the redo-log manager and the in-process read cache.
-/

/-- Latest-value and historical keys of the state database, as built by the
chain_utils key constructors (package not among the shown sources), kept
symbolic.  The gid-contract index key carries the address and the gid
bytes in the layout WriteByRedo reconstructs by hand: prefix, address
bytes, then the first GidSize bytes of the serialized meta. -/
inductive StateKey where
  | storageValue (addr : Address) (key : Bytes)
  | balance (addr : Address) (token : TokenId)
  | code (addr : Address)
  | contractMeta (addr : Address)
  | gidContract (addr : Address) (gid : Bytes)
  | vmLogList (h : Hashv)
  | callDepth (h : Hashv)
  | historyStorage (addr : Address) (key : Bytes) (height : Nat)
  | historyBalance (addr : Address) (token : TokenId) (height : Nat)
  deriving DecidableEq, Repr

/-- Operations of the state batch are keyed by state keys. -/
abbrev BOp := KVOp StateKey

/-- Namespaced keys of the write-through read cache (go-cache entries with
the balance, contract and snapshot-value name spaces). -/
inductive CacheKey where
  | balanceC (key : StateKey)
  | contractC (key : StateKey)
  | snapshotC (addr : Address) (storageKey : Bytes)
  deriving DecidableEq, Repr

/-- The in-process read cache contents. -/
def Cache := CacheKey → Option Bytes

/-- cache.Set with no expiration. -/
def cacheSet (c : Cache) (k : CacheKey) (v : Bytes) : Cache :=
  fun k' => if k' = k then some v else c k'

/-- The per-account-block redo item (chain_state.LogItem): ordered storage
pairs, balance map, contract code, serialized metas, serialized vm log
lists, call depths, and the block height. -/
structure LogItem where
  Storage : List (Bytes × Bytes)
  BalanceMap : List (TokenId × Nat)
  Code : Bytes
  ContractMeta : List (Address × Bytes)
  VmLogList : List (Hashv × Bytes)
  CallDepth : List (Hashv × Nat)
  Height : Nat
  deriving DecidableEq, Repr

/-- types.GidSize: length of a consensus-group id in bytes. -/
def GidSize : Nat := 10

/-- Modelled from the spec: ledger.ContractMeta: the consensus-group id
bytes, the creating block hash stamped by Write, and the remaining
fields opaquely. -/
structure ContractMeta where
  gid : Bytes
  createBlockHash : Hashv
  rest : Bytes
  deriving DecidableEq, Repr

/-- Modelled from the spec: ContractMeta.Serialize; the gid bytes lead the
encoding, which is what lets WriteByRedo recover the gid from the first
GidSize bytes of the serialized meta. -/
def metaSerialize (m : ContractMeta) : Bytes :=
  m.gid ++ m.createBlockHash :: m.rest

/-- Modelled from the spec: big.Int.Bytes, the minimal big-endian encoding
of a balance (empty for zero); the first argument of the helper is fuel
bounding recursion depth. -/
def bigIntBytesAux : Nat → Nat → Bytes
  | 0, _ => []
  | _ + 1, 0 => []
  | fuel + 1, n => bigIntBytesAux fuel (n / 256) ++ [n % 256]

/-- Modelled from the spec: big.Int.Bytes entry point. -/
def bigIntBytes (n : Nat) : Bytes := bigIntBytesAux n n

/-- binary.BigEndian.PutUint16: the two-byte big-endian encoding of a
16-bit value. -/
def be16 (d : Nat) : Bytes := [(d / 256) % 256, d % 256]

/-- Modelled from the spec: the VM-state provider (the vmDb of an
interfaces.VmAccountBlock), holding the unsaved deltas of one block. -/
structure VmDb where
  canWrite : Bool
  unsavedStorage : List (Bytes × Bytes)
  unsavedBalanceMap : List (TokenId × Nat)
  unsavedContractCode : Option Bytes
  unsavedContractMeta : List (Address × ContractMeta)
  logListSerialized : Except String Bytes
  getCallDepth : Hashv → Except String Nat

/-- The account block as the state writer reads it (ledger.AccountBlock);
the send-block list keeps the hashes of the embedded send blocks, the
only field write.go touches, and IsReceiveBlock() is a flag. -/
structure AccountBlockS where
  accountAddress : Address
  hash : Hashv
  height : Nat
  logHash : Option Hashv
  isReceive : Bool
  fromBlockHash : Hashv
  sendBlockList : List Hashv
  deriving DecidableEq, Repr

/-- interfaces.VmAccountBlock: an account block with its VM-state provider. -/
structure VmAccountBlock where
  accountBlock : AccountBlockS
  vmDb : VmDb

/-- Modelled from the spec: the redo-log manager (chain_state storage redo,
not among the shown sources): the current not-yet-confirmed height and the
in-memory buffer of (address, redo item) pairs per height. -/
structure RedoManager where
  current : Nat
  logs : Nat → List (Address × LogItem)

/-- Modelled from the spec: redo.AddLog appends to the buffer of the
current height, keyed by account address. -/
def redoAddLog (r : RedoManager) (addr : Address) (item : LogItem) : RedoManager :=
  { r with logs := fun h =>
      if h = r.current then r.logs h ++ [(addr, item)] else r.logs h }

/-- Modelled from the spec: redo.InsertSnapshotBlock begins tracking the
next height; the buffer of the height being confirmed stays queryable for
the fold into history that follows it. -/
def redoInsertSnapshotBlock (r : RedoManager) (sb : SnapshotBlockB) : RedoManager :=
  { r with current := sb.height + 1 }

/-- Modelled from the spec: redo.QueryLog for one height. -/
def redoQueryLog (r : RedoManager) (height : Nat) : List (Address × LogItem) :=
  r.logs height

/-- StateDB (chain_state.StateDB): the operations handed to the staged
store's pending batch so far, the redo manager, the write-through read
cache, and the externally configured vm-log policy and contract-data
caching predicate. -/
structure StateDB where
  storeOps : List BOp
  redo : RedoManager
  cache : Cache
  vmLogAll : Bool
  vmLogWhiteList : List Address
  shouldCacheContractData : Address → Bool

/-- StateDB.canWriteVmLog: the global flag, or membership in the explicit
white list (write.go lines 282-290). -/
def canWriteVmLog (sDB : StateDB) (addr : Address) : Bool :=
  sDB.vmLogAll || sDB.vmLogWhiteList.contains addr

/-- The storage section of the batch: delete when the new value is empty,
put otherwise (write.go lines 31-38, and the same loop in WriteByRedo). -/
def storageOps (addr : Address) (storage : List (Bytes × Bytes)) : List BOp :=
  storage.map (fun kv =>
    if kv.2.length ≤ 0 then KVOp.del (.storageValue addr kv.1)
    else KVOp.put (.storageValue addr kv.1) kv.2)

/-- The balance section of the batch (writeBalance puts the big-endian
balance bytes). -/
def balanceOps (addr : Address) (bm : List (TokenId × Nat)) : List BOp :=
  bm.map (fun tb => KVOp.put (.balance addr tb.1) (bigIntBytes tb.2))

/-- The cache updates of writeBalance, applied in loop order. -/
def balanceCacheUpd (addr : Address) (bm : List (TokenId × Nat)) (c : Cache) : Cache :=
  bm.foldl (fun c tb => cacheSet c (.balanceC (.balance addr tb.1)) (bigIntBytes tb.2)) c

/-- The contract-meta section of Write's batch: stamp the creating block
hash, put the serialized meta, and put the gid-contract index entry with
an empty value (write.go lines 62-83). -/
def metaOpsWrite (blockHash : Hashv) (metas : List (Address × ContractMeta)) : List BOp :=
  (metas.map (fun am =>
    [KVOp.put (.contractMeta am.1) (metaSerialize { am.2 with createBlockHash := blockHash }),
     KVOp.put (.gidContract am.1 am.2.gid) []])).flatten

/-- The cache updates of writeContractMeta during Write, in loop order. -/
def metaCacheUpd (blockHash : Hashv) (metas : List (Address × ContractMeta)) (c : Cache) :
    Cache :=
  metas.foldl (fun c am =>
    cacheSet c (.contractC (.contractMeta am.1))
      (metaSerialize { am.2 with createBlockHash := blockHash })) c

/-- The vm-log step of Write (lines 86-95): when the block carries a log
hash and the policy allows the address, serialize the log list (failing
fails the write) and put it under the log-hash key; returns the batch
operations and the redo-item entries. -/
def vmLogStep (sDB : StateDB) (block : VmAccountBlock) :
    Except String (List BOp × List (Hashv × Bytes)) :=
  match block.accountBlock.logHash with
  | some lh =>
    if canWriteVmLog sDB block.accountBlock.accountAddress then
      match block.vmDb.logListSerialized with
      | .error e => .error e
      | .ok bs => .ok ([KVOp.put (.vmLogList lh) bs], [(lh, bs)])
    else .ok ([], [])
  | none => .ok ([], [])

/-- The call-depth step of Write (lines 97-114): for a receive block with
send blocks, fetch the parent depth (failing fails the write), add one as
a 16-bit unsigned value, and put its big-endian bytes under every send
block hash; returns the batch operations and the redo-item entries. -/
def callDepthStep (block : VmAccountBlock) :
    Except String (List BOp × List (Hashv × Nat)) :=
  if block.accountBlock.isReceive = true ∧ block.accountBlock.sendBlockList ≠ [] then
    match block.vmDb.getCallDepth block.accountBlock.fromBlockHash with
    | .error e => .error e
    | .ok d =>
      .ok (block.accountBlock.sendBlockList.map
            (fun h => KVOp.put (.callDepth h) (be16 ((d + 1) % 65536))),
           block.accountBlock.sendBlockList.map (fun h => (h, (d + 1) % 65536)))
  else .ok ([], [])

/-- The error-free part of Write's batch: storage, balance, code and
contract-meta sections in program order. -/
def writeBatchA (block : VmAccountBlock) : List BOp :=
  storageOps block.accountBlock.accountAddress block.vmDb.unsavedStorage
    ++ balanceOps block.accountBlock.accountAddress block.vmDb.unsavedBalanceMap
    ++ (match block.vmDb.unsavedContractCode with
        | some c => [KVOp.put (.code block.accountBlock.accountAddress) c]
        | none => [])
    ++ metaOpsWrite block.accountBlock.hash block.vmDb.unsavedContractMeta

/-- The cache state after Write's balance and contract-meta loops; these
cache mutations happen before the fallible vm-log and call-depth steps
and therefore persist even when Write returns an error there. -/
def writeCachePre (sDB : StateDB) (block : VmAccountBlock) : Cache :=
  metaCacheUpd block.accountBlock.hash block.vmDb.unsavedContractMeta
    (balanceCacheUpd block.accountBlock.accountAddress
      block.vmDb.unsavedBalanceMap sDB.cache)

/-- The redo item Write assembles (LogItem fields in assignment order). -/
def writeRedoItem (block : VmAccountBlock) (logPairs : List (Hashv × Bytes))
    (depthPairs : List (Hashv × Nat)) : LogItem :=
  { Storage := block.vmDb.unsavedStorage,
    BalanceMap := block.vmDb.unsavedBalanceMap,
    Code := (block.vmDb.unsavedContractCode).getD [],
    ContractMeta := block.vmDb.unsavedContractMeta.map
      (fun am => (am.1, metaSerialize { am.2 with createBlockHash := block.accountBlock.hash })),
    VmLogList := logPairs,
    CallDepth := depthPairs,
    Height := block.accountBlock.height }

/-- StateDB.Write (write.go lines 16-125): refuse a provider that cannot
write; otherwise build the batch and redo item section by section, with
the vm-log and call-depth steps able to fail the write after the cache
has already absorbed the balance and meta entries; on success hand the
batch to the staged store and the item to the redo manager. -/
def stateWrite (sDB : StateDB) (block : VmAccountBlock) : StateDB × Option String :=
  if block.vmDb.canWrite = false then
    (sDB, some "vmDb.CanWrite() is false")
  else
    match vmLogStep sDB block with
    | .error e => ({ sDB with cache := writeCachePre sDB block }, some e)
    | .ok lr =>
      match callDepthStep block with
      | .error e => ({ sDB with cache := writeCachePre sDB block }, some e)
      | .ok dr =>
        ({ sDB with
            cache := writeCachePre sDB block,
            redo := redoAddLog sDB.redo block.accountBlock.accountAddress
              (writeRedoItem block lr.2 dr.2),
            storeOps := sDB.storeOps ++ writeBatchA block ++ lr.1 ++ dr.1 }, none)

/-- The batch StateDB.WriteByRedo builds from a redo item (write.go lines
127-187): the same storage and balance loops, the code only when
non-empty, the metas with the gid-contract key rebuilt from the first
GidSize bytes of the serialized meta, every vm log pair, and every call
depth re-encoded big-endian. -/
def writeByRedoBatch (addr : Address) (item : LogItem) : List BOp :=
  storageOps addr item.Storage
    ++ balanceOps addr item.BalanceMap
    ++ (if item.Code.length > 0 then [KVOp.put (.code addr) item.Code] else [])
    ++ (item.ContractMeta.map (fun am =>
          [KVOp.put (.contractMeta am.1) am.2,
           KVOp.put (.gidContract am.1 (am.2.take GidSize)) []])).flatten
    ++ item.VmLogList.map (fun p => KVOp.put (.vmLogList p.1) p.2)
    ++ item.CallDepth.map (fun p => KVOp.put (.callDepth p.1) (be16 p.2))

/-- StateDB.WriteByRedo: replay a redo item directly into the pending
batch, with the writeBalance and writeContractMeta cache updates, without
consulting the VM-state provider. -/
def stateWriteByRedo (sDB : StateDB) (blockHash : Hashv) (addr : Address)
    (item : LogItem) : StateDB :=
  { sDB with
      cache := item.ContractMeta.foldl
        (fun c am => cacheSet c (.contractC (.contractMeta am.1)) am.2)
        (balanceCacheUpd addr item.BalanceMap sDB.cache),
      storeOps := sDB.storeOps ++ writeByRedoBatch addr item }

/-- C3 (amended): a provider that reports not-writable makes Write return
the invalid-state error with the state fully unchanged; and on every
error return, no operation has been handed to the staged store and no
redo item has been added to the redo log manager.  (The in-process read
cache, however, may already hold balance and contract-meta entries
written before a vm-log serialization or call-depth failure; see the
counterexample.) -/
theorem write_error_leaves_store_and_redo (sDB : StateDB) (block : VmAccountBlock) :
    (block.vmDb.canWrite = false →
      stateWrite sDB block = (sDB, some "vmDb.CanWrite() is false")) ∧
    (∀ e, (stateWrite sDB block).2 = some e →
      (stateWrite sDB block).1.storeOps = sDB.storeOps ∧
      (stateWrite sDB block).1.redo = sDB.redo) := by
  constructor
  · intro h
    unfold stateWrite
    rw [if_pos h]
  · intro e he
    unfold stateWrite at he ⊢
    by_cases hcw : block.vmDb.canWrite = false
    · rw [if_pos hcw] at he ⊢
      exact ⟨rfl, rfl⟩
    · rw [if_neg hcw] at he ⊢
      cases hlog : vmLogStep sDB block with
      | error e' =>
        exact ⟨rfl, rfl⟩
      | ok lr =>
        cases hdep : callDepthStep block with
        | error e' =>
          exact ⟨rfl, rfl⟩
        | ok dr =>
          rw [hlog, hdep] at he
          simp at he

/-- A state database with the vm-log-all policy enabled and empty caches,
for the error-path examples. -/
def sDBerrEx : StateDB :=
  ⟨[], ⟨0, fun _ => []⟩, fun _ => none, true, [], fun _ => false⟩

/-- A block whose provider refuses writes. -/
def blockNotWritableEx : VmAccountBlock :=
  ⟨⟨1, 11, 3, none, false, 0, []⟩,
   ⟨false, [], [], none, [], .ok [], fun _ => .ok 0⟩⟩

/-- A block carrying one balance delta and a log hash whose log-list
serialization fails. -/
def blockLogFailEx : VmAccountBlock :=
  ⟨⟨1, 11, 3, some 9, false, 0, []⟩,
   ⟨true, [], [(5, 7)], none, [], .error "log list serialize error", fun _ => .ok 0⟩⟩

/-- C3 witness: the not-writable provider gets the invalid-state error
with nothing changed, and the failing serialization leaves store and redo
untouched. -/
theorem write_error_leaves_store_and_redo_witness :
    stateWrite sDBerrEx blockNotWritableEx = (sDBerrEx, some "vmDb.CanWrite() is false") ∧
    (stateWrite sDBerrEx blockLogFailEx).1.storeOps = sDBerrEx.storeOps ∧
    (stateWrite sDBerrEx blockLogFailEx).1.redo = sDBerrEx.redo :=
  ⟨(write_error_leaves_store_and_redo sDBerrEx blockNotWritableEx).1 rfl,
   ((write_error_leaves_store_and_redo sDBerrEx blockLogFailEx).2
      "log list serialize error" rfl).1,
   ((write_error_leaves_store_and_redo sDBerrEx blockLogFailEx).2
      "log list serialize error" rfl).2⟩

/-- C3 counterexample: on the log-serialization failure the write returns
an error and hands nothing to store or redo, but the observable state is
not unchanged: the read cache now holds the balance entry written before
the failure. -/
theorem write_error_cache_mutated_counterexample :
    (stateWrite sDBerrEx blockLogFailEx).2 = some "log list serialize error" ∧
    (stateWrite sDBerrEx blockLogFailEx).1.storeOps = sDBerrEx.storeOps ∧
    (stateWrite sDBerrEx blockLogFailEx).1.redo = sDBerrEx.redo ∧
    (stateWrite sDBerrEx blockLogFailEx).1.cache (.balanceC (.balance 1 5)) = some [7] ∧
    sDBerrEx.cache (.balanceC (.balance 1 5)) = none :=
  ⟨rfl, rfl, rfl, by decide, rfl⟩

theorem vmLog_not_in_writeBatchA (block : VmAccountBlock) (lh : Hashv) (v : Bytes) :
    KVOp.put (.vmLogList lh) v ∉ writeBatchA block := by
  intro hmem
  unfold writeBatchA at hmem
  rcases List.mem_append.mp hmem with h | h
  · rcases List.mem_append.mp h with h | h
    · rcases List.mem_append.mp h with h | h
      · rcases List.mem_map.mp h with ⟨kv, _, heq⟩
        by_cases hc : kv.2.length ≤ 0 <;> simp [storageOps, hc] at heq
      · rcases List.mem_map.mp h with ⟨tb, _, heq⟩
        simp at heq
    · cases hcode : block.vmDb.unsavedContractCode with
      | none => rw [hcode] at h; simp at h
      | some c => rw [hcode] at h; simp at h
  · unfold metaOpsWrite at h
    rcases List.mem_flatten.mp h with ⟨l2, hl2, hop⟩
    rcases List.mem_map.mp hl2 with ⟨am, _, heq⟩
    rw [← heq] at hop
    simp at hop

theorem callDepthStep_receive (block : VmAccountBlock) (d : Nat)
    (hrecv : block.accountBlock.isReceive = true)
    (hsend : block.accountBlock.sendBlockList ≠ [])
    (hd : block.vmDb.getCallDepth block.accountBlock.fromBlockHash = .ok d) :
    callDepthStep block =
      .ok (block.accountBlock.sendBlockList.map
            (fun h => KVOp.put (.callDepth h) (be16 ((d + 1) % 65536))),
           block.accountBlock.sendBlockList.map (fun h => (h, (d + 1) % 65536))) := by
  unfold callDepthStep
  rw [if_pos ⟨hrecv, hsend⟩, hd]

theorem vmLog_not_in_depthOps (block : VmAccountBlock)
    (dr : List BOp × List (Hashv × Nat)) (hdep : callDepthStep block = .ok dr)
    (lh : Hashv) (v : Bytes) :
    KVOp.put (.vmLogList lh) v ∉ dr.1 := by
  unfold callDepthStep at hdep
  by_cases hc : block.accountBlock.isReceive = true ∧ block.accountBlock.sendBlockList ≠ []
  · rw [if_pos hc] at hdep
    cases hcd : block.vmDb.getCallDepth block.accountBlock.fromBlockHash with
    | error e =>
      rw [hcd] at hdep
      exact absurd hdep (by simp)
    | ok d =>
      rw [hcd] at hdep
      have hdr : dr = (block.accountBlock.sendBlockList.map
          (fun h => KVOp.put (.callDepth h) (be16 ((d + 1) % 65536))),
          block.accountBlock.sendBlockList.map (fun h => (h, (d + 1) % 65536))) := by
        have := (Except.ok.injEq _ _).mp hdep
        exact this.symm
      rw [hdr]
      intro hmem
      rcases List.mem_map.mp hmem with ⟨h0, _, heq⟩
      simp at heq
  · rw [if_neg hc] at hdep
    have hdr : dr = ([], []) := by
      have := (Except.ok.injEq _ _).mp hdep
      exact this.symm
    rw [hdr]
    simp

theorem vmLogStep_char (sDB : StateDB) (block : VmAccountBlock)
    (lr : List BOp × List (Hashv × Bytes)) (hlog : vmLogStep sDB block = .ok lr) :
    (lr = ([], []) ∧ (∀ lh, block.accountBlock.logHash = some lh →
       canWriteVmLog sDB block.accountBlock.accountAddress = false)) ∨
    (∃ lh bs, block.accountBlock.logHash = some lh ∧
       canWriteVmLog sDB block.accountBlock.accountAddress = true ∧
       block.vmDb.logListSerialized = .ok bs ∧
       lr = ([KVOp.put (.vmLogList lh) bs], [(lh, bs)])) := by
  unfold vmLogStep at hlog
  cases hlh : block.accountBlock.logHash with
  | none =>
    rw [hlh] at hlog
    have hlog2 : Except.ok ([], []) = Except.ok lr := hlog
    left
    refine ⟨((Except.ok.injEq _ _).mp hlog2).symm, ?_⟩
    intro lh hc
    exact absurd hc (by simp)
  | some lh =>
    rw [hlh] at hlog
    have hlog2 : (if canWriteVmLog sDB block.accountBlock.accountAddress = true then
        (match block.vmDb.logListSerialized with
          | Except.error e => Except.error e
          | Except.ok bs => Except.ok ([KVOp.put (StateKey.vmLogList lh) bs], [(lh, bs)]))
      else Except.ok ([], [])) = Except.ok lr := hlog
    by_cases hpol : canWriteVmLog sDB block.accountBlock.accountAddress = true
    · rw [if_pos hpol] at hlog2
      cases hser : block.vmDb.logListSerialized with
      | error e =>
        rw [hser] at hlog2
        exact absurd hlog2 (by simp)
      | ok bs =>
        rw [hser] at hlog2
        right
        exact ⟨lh, bs, rfl, hpol, rfl, ((Except.ok.injEq _ _).mp hlog2).symm⟩
    · rw [if_neg hpol] at hlog2
      left
      refine ⟨((Except.ok.injEq _ _).mp hlog2).symm, ?_⟩
      intro lh' hc
      cases hx : canWriteVmLog sDB block.accountBlock.accountAddress with
      | true => exact absurd hx hpol
      | false => rfl

theorem stateWrite_success_shape (sDB : StateDB) (block : VmAccountBlock)
    (lr : List BOp × List (Hashv × Bytes)) (dr : List BOp × List (Hashv × Nat))
    (hcw : block.vmDb.canWrite = true)
    (hlog : vmLogStep sDB block = .ok lr)
    (hdep : callDepthStep block = .ok dr) :
    stateWrite sDB block =
      ({ sDB with
          cache := writeCachePre sDB block,
          redo := redoAddLog sDB.redo block.accountBlock.accountAddress
            (writeRedoItem block lr.2 dr.2),
          storeOps := sDB.storeOps ++ writeBatchA block ++ lr.1 ++ dr.1 }, none) := by
  unfold stateWrite
  rw [if_neg (by simp [hcw]), hlog, hdep]

/-- C8: on a successful write, the serialized vm log list sits in the
handed batch under the block's log-hash key exactly when the block
carries a log hash and the policy (global flag or white list) allows the
address; any vm-log-list put in the batch carries the serialized log
list under the block's log hash. -/
theorem write_vmlog_policy (sDB : StateDB) (block : VmAccountBlock)
    (lr : List BOp × List (Hashv × Bytes)) (dr : List BOp × List (Hashv × Nat))
    (hcw : block.vmDb.canWrite = true)
    (hlog : vmLogStep sDB block = .ok lr)
    (hdep : callDepthStep block = .ok dr) :
    (stateWrite sDB block).2 = none ∧
    (stateWrite sDB block).1.storeOps =
      sDB.storeOps ++ writeBatchA block ++ lr.1 ++ dr.1 ∧
    (∀ lh v, KVOp.put (.vmLogList lh) v ∈ writeBatchA block ++ lr.1 ++ dr.1 →
      block.accountBlock.logHash = some lh ∧
      canWriteVmLog sDB block.accountBlock.accountAddress = true ∧
      block.vmDb.logListSerialized = .ok v) ∧
    (∀ lh, block.accountBlock.logHash = some lh →
      canWriteVmLog sDB block.accountBlock.accountAddress = true →
      ∃ v, block.vmDb.logListSerialized = .ok v ∧
        KVOp.put (.vmLogList lh) v ∈ writeBatchA block ++ lr.1 ++ dr.1) := by
  have hshape := stateWrite_success_shape sDB block lr dr hcw hlog hdep
  refine ⟨by rw [hshape], by rw [hshape], ?_, ?_⟩
  · intro lh v hmem
    rcases List.mem_append.mp hmem with hmem | hmem
    · rcases List.mem_append.mp hmem with hmem | hmem
      · exact absurd hmem (vmLog_not_in_writeBatchA block lh v)
      · rcases vmLogStep_char sDB block lr hlog with ⟨hlr, _⟩ | ⟨lh', bs, h1, h2, h3, hlr⟩
        · rw [hlr] at hmem
          exact absurd hmem (by simp)
        · rw [hlr] at hmem
          have heq : KVOp.put (StateKey.vmLogList lh) v =
              KVOp.put (StateKey.vmLogList lh') bs := by
            have := List.mem_singleton.mp hmem
            exact this
          have hlh : lh = lh' := by
            injection heq with hk hv
            injection hk with hk2
          have hv : v = bs := by
            injection heq with hk hv
          rw [hlh, hv]
          exact ⟨h1, h2, h3⟩
    · exact absurd hmem (vmLog_not_in_depthOps block dr hdep lh v)
  · intro lh hlh hpol
    rcases vmLogStep_char sDB block lr hlog with ⟨_, hno⟩ | ⟨lh', bs, h1, _, h3, hlr⟩
    · have := hno lh hlh
      rw [hpol] at this
      exact absurd this (by simp)
    · have hlh2 : lh = lh' := by
        rw [hlh] at h1
        injection h1
      refine ⟨bs, h3, ?_⟩
      rw [hlh2, hlr]
      apply List.mem_append.mpr
      left
      apply List.mem_append.mpr
      right
      simp

/-- A state database with the white-list policy containing address 1. -/
def sDBvmEx : StateDB :=
  ⟨[], ⟨0, fun _ => []⟩, fun _ => none, false, [1], fun _ => false⟩

/-- A block of address 1 carrying log hash 9 whose log list serializes to
the byte 5. -/
def blockVmEx : VmAccountBlock :=
  ⟨⟨1, 11, 3, some 9, false, 0, []⟩,
   ⟨true, [], [], none, [], .ok [5], fun _ => .ok 0⟩⟩

/-- C8 witness: the white-listed address with a log hash gets its
serialized log list into the batch. -/
theorem write_vmlog_policy_witness :
    (stateWrite sDBvmEx blockVmEx).2 = none ∧
    (∃ v, blockVmEx.vmDb.logListSerialized = .ok v ∧
      KVOp.put (.vmLogList 9) v ∈
        writeBatchA blockVmEx ++ ([KVOp.put (.vmLogList 9) [5]] : List BOp) ++ []) :=
  ⟨(write_vmlog_policy sDBvmEx blockVmEx ([KVOp.put (.vmLogList 9) [5]], [(9, [5])])
      ([], []) rfl rfl rfl).1,
   (write_vmlog_policy sDBvmEx blockVmEx ([KVOp.put (.vmLogList 9) [5]], [(9, [5])])
      ([], []) rfl rfl rfl).2.2.2 9 rfl rfl⟩

/-- C9: for a successful write of a receive block with send blocks, the
depth fetched for the FromBlockHash plus one, as a 16-bit value, is stored
big-endian under the call-depth key of every send block hash, and the redo
item records exactly that map. -/
theorem write_call_depth (sDB : StateDB) (block : VmAccountBlock)
    (lr : List BOp × List (Hashv × Bytes)) (d : Nat)
    (hcw : block.vmDb.canWrite = true)
    (hlog : vmLogStep sDB block = .ok lr)
    (hrecv : block.accountBlock.isReceive = true)
    (hsend : block.accountBlock.sendBlockList ≠ [])
    (hd : block.vmDb.getCallDepth block.accountBlock.fromBlockHash = .ok d) :
    (stateWrite sDB block).2 = none ∧
    (∀ h, h ∈ block.accountBlock.sendBlockList →
      KVOp.put (.callDepth h) (be16 ((d + 1) % 65536)) ∈
        (stateWrite sDB block).1.storeOps) ∧
    (stateWrite sDB block).1.redo.logs sDB.redo.current =
      sDB.redo.logs sDB.redo.current ++
        [(block.accountBlock.accountAddress,
          writeRedoItem block lr.2
            (block.accountBlock.sendBlockList.map (fun h => (h, (d + 1) % 65536))))] ∧
    (writeRedoItem block lr.2
        (block.accountBlock.sendBlockList.map (fun h => (h, (d + 1) % 65536)))).CallDepth =
      block.accountBlock.sendBlockList.map (fun h => (h, (d + 1) % 65536)) := by
  have hdep := callDepthStep_receive block d hrecv hsend hd
  have hshape := stateWrite_success_shape sDB block
    lr (block.accountBlock.sendBlockList.map
          (fun h => KVOp.put (.callDepth h) (be16 ((d + 1) % 65536))),
        block.accountBlock.sendBlockList.map (fun h => (h, (d + 1) % 65536)))
    hcw hlog hdep
  refine ⟨by rw [hshape], ?_, ?_, rfl⟩
  · intro h hmem
    rw [hshape]
    show KVOp.put (.callDepth h) (be16 ((d + 1) % 65536)) ∈
      sDB.storeOps ++ writeBatchA block ++ lr.1 ++
        block.accountBlock.sendBlockList.map
          (fun h => KVOp.put (.callDepth h) (be16 ((d + 1) % 65536)))
    apply List.mem_append.mpr
    right
    exact List.mem_map.mpr ⟨h, hmem, rfl⟩
  · rw [hshape]
    show (redoAddLog sDB.redo block.accountBlock.accountAddress _).logs sDB.redo.current = _
    unfold redoAddLog
    simp

/-- A state database and a receive block with two send blocks whose parent
call depth is 3. -/
def sDBdepthEx : StateDB :=
  ⟨[], ⟨0, fun _ => []⟩, fun _ => none, false, [], fun _ => false⟩

/-- The receive block with send blocks 21 and 22 and parent depth 3. -/
def blockDepthEx : VmAccountBlock :=
  ⟨⟨1, 11, 3, none, true, 7, [21, 22]⟩,
   ⟨true, [], [], none, [], .ok [], fun _ => .ok 3⟩⟩

/-- C9 witness: parent depth 3 stores big-endian 4 under both send block
hashes. -/
theorem write_call_depth_witness :
    (stateWrite sDBdepthEx blockDepthEx).2 = none ∧
    KVOp.put (.callDepth 21) (be16 ((3 + 1) % 65536)) ∈
      (stateWrite sDBdepthEx blockDepthEx).1.storeOps ∧
    KVOp.put (.callDepth 22) (be16 ((3 + 1) % 65536)) ∈
      (stateWrite sDBdepthEx blockDepthEx).1.storeOps :=
  ⟨(write_call_depth sDBdepthEx blockDepthEx ([], []) 3 rfl rfl rfl (by decide) rfl).1,
   (write_call_depth sDBdepthEx blockDepthEx ([], []) 3 rfl rfl rfl (by decide) rfl).2.1
     21 (by decide),
   (write_call_depth sDBdepthEx blockDepthEx ([], []) 3 rfl rfl rfl (by decide) rfl).2.1
     22 (by decide)⟩

theorem vmLogStep_pairs_ops (sDB : StateDB) (block : VmAccountBlock)
    (lr : List BOp × List (Hashv × Bytes)) (hlog : vmLogStep sDB block = .ok lr) :
    lr.2.map (fun p => KVOp.put (.vmLogList p.1) p.2) = lr.1 := by
  rcases vmLogStep_char sDB block lr hlog with ⟨hlr, _⟩ | ⟨lh, bs, _, _, _, hlr⟩ <;>
    rw [hlr] <;> rfl

theorem callDepthStep_pairs_ops (block : VmAccountBlock)
    (dr : List BOp × List (Hashv × Nat)) (hdep : callDepthStep block = .ok dr) :
    dr.2.map (fun p => KVOp.put (.callDepth p.1) (be16 p.2)) = dr.1 := by
  unfold callDepthStep at hdep
  by_cases hc : block.accountBlock.isReceive = true ∧ block.accountBlock.sendBlockList ≠ []
  · rw [if_pos hc] at hdep
    cases hcd : block.vmDb.getCallDepth block.accountBlock.fromBlockHash with
    | error e =>
      rw [hcd] at hdep
      exact absurd hdep (by simp)
    | ok d =>
      rw [hcd] at hdep
      have hdr := (Except.ok.injEq _ _).mp hdep
      rw [← hdr]
      rw [List.map_map]
      rfl
  · rw [if_neg hc] at hdep
    have hdr := (Except.ok.injEq _ _).mp hdep
    rw [← hdr]
    rfl

theorem metaOps_replay (bh : Hashv) (metas : List (Address × ContractMeta))
    (hgid : ∀ am ∈ metas, am.2.gid.length = GidSize) :
    ((metas.map (fun am =>
        (am.1, metaSerialize { am.2 with createBlockHash := bh }))).map
      (fun am => [KVOp.put (StateKey.contractMeta am.1) am.2,
                  KVOp.put (StateKey.gidContract am.1 (am.2.take GidSize)) []])).flatten =
      metaOpsWrite bh metas := by
  unfold metaOpsWrite
  rw [List.map_map]
  congr 1
  apply List.map_congr_left
  intro am ham
  have htake : (metaSerialize { am.2 with createBlockHash := bh }).take GidSize =
      am.2.gid := by
    show (am.2.gid ++ (bh :: am.2.rest)).take GidSize = am.2.gid
    rw [← hgid am ham]
    exact List.take_left _ _
  show [KVOp.put (StateKey.contractMeta am.1)
          (metaSerialize { am.2 with createBlockHash := bh }),
        KVOp.put (StateKey.gidContract am.1
          ((metaSerialize { am.2 with createBlockHash := bh }).take GidSize)) []] =
    [KVOp.put (StateKey.contractMeta am.1)
      (metaSerialize { am.2 with createBlockHash := bh }),
     KVOp.put (StateKey.gidContract am.1 am.2.gid) []]
  rw [htake]

/-- C4 (amended): a redo item recorded by a successful Write, replayed via
WriteByRedo against any fresh state, hands exactly the same batch of
latest-value operations to the pending buffer, provided the provider's
contract code delta is not the empty-but-present byte string (WriteByRedo
skips an empty code that Write does put) and the metas carry gids of the
fixed gid size; and replaying the batch a second time leaves the engine
exactly as replaying it once. -/
theorem writeByRedo_replays_write (sDB fresh : StateDB) (block : VmAccountBlock)
    (lr : List BOp × List (Hashv × Bytes)) (dr : List BOp × List (Hashv × Nat))
    (e : Engine StateKey) (k : StateKey)
    (hcw : block.vmDb.canWrite = true)
    (hlog : vmLogStep sDB block = .ok lr)
    (hdep : callDepthStep block = .ok dr)
    (hcode : block.vmDb.unsavedContractCode ≠ some [])
    (hgid : ∀ am ∈ block.vmDb.unsavedContractMeta, am.2.gid.length = GidSize) :
    (stateWrite sDB block).2 = none ∧
    (stateWrite sDB block).1.storeOps =
      sDB.storeOps ++ writeBatchA block ++ lr.1 ++ dr.1 ∧
    (stateWrite sDB block).1.redo.logs sDB.redo.current =
      sDB.redo.logs sDB.redo.current ++
        [(block.accountBlock.accountAddress, writeRedoItem block lr.2 dr.2)] ∧
    writeByRedoBatch block.accountBlock.accountAddress (writeRedoItem block lr.2 dr.2) =
      writeBatchA block ++ lr.1 ++ dr.1 ∧
    (stateWriteByRedo fresh block.accountBlock.hash block.accountBlock.accountAddress
        (writeRedoItem block lr.2 dr.2)).storeOps =
      fresh.storeOps ++ (writeBatchA block ++ lr.1 ++ dr.1) ∧
    applyOps (applyOps e (writeByRedoBatch block.accountBlock.accountAddress
        (writeRedoItem block lr.2 dr.2)))
      (writeByRedoBatch block.accountBlock.accountAddress
        (writeRedoItem block lr.2 dr.2)) k =
      applyOps e (writeByRedoBatch block.accountBlock.accountAddress
        (writeRedoItem block lr.2 dr.2)) k := by
  have hshape := stateWrite_success_shape sDB block lr dr hcw hlog hdep
  have p1 : (writeRedoItem block lr.2 dr.2).Storage = block.vmDb.unsavedStorage := rfl
  have p2 : (writeRedoItem block lr.2 dr.2).BalanceMap =
      block.vmDb.unsavedBalanceMap := rfl
  have p3 : (writeRedoItem block lr.2 dr.2).Code =
      (block.vmDb.unsavedContractCode).getD [] := rfl
  have p4 : (writeRedoItem block lr.2 dr.2).ContractMeta =
      block.vmDb.unsavedContractMeta.map (fun am =>
        (am.1, metaSerialize { am.2 with createBlockHash := block.accountBlock.hash })) := rfl
  have p5 : (writeRedoItem block lr.2 dr.2).VmLogList = lr.2 := rfl
  have p6 : (writeRedoItem block lr.2 dr.2).CallDepth = dr.2 := rfl
  have hcodeEq : (if ((block.vmDb.unsavedContractCode).getD ([] : Bytes)).length > 0 then
      [KVOp.put (StateKey.code block.accountBlock.accountAddress)
        ((block.vmDb.unsavedContractCode).getD [])] else []) =
      (match block.vmDb.unsavedContractCode with
        | some c => [KVOp.put (StateKey.code block.accountBlock.accountAddress) c]
        | none => []) := by
    cases hc : block.vmDb.unsavedContractCode with
    | none => rfl
    | some c =>
      have hcne : c ≠ [] := fun h => hcode (h ▸ hc)
      have hlen : 0 < ((some c).getD ([] : Bytes)).length := List.length_pos.mpr hcne
      rw [if_pos hlen]
      rfl
  have hbatch : writeByRedoBatch block.accountBlock.accountAddress
      (writeRedoItem block lr.2 dr.2) = writeBatchA block ++ lr.1 ++ dr.1 := by
    unfold writeByRedoBatch
    rw [p1, p2, p3, p4, p5, p6]
    rw [hcodeEq]
    rw [metaOps_replay block.accountBlock.hash block.vmDb.unsavedContractMeta hgid]
    rw [vmLogStep_pairs_ops sDB block lr hlog]
    rw [callDepthStep_pairs_ops block dr hdep]
    unfold writeBatchA
    rfl
  refine ⟨by rw [hshape], by rw [hshape], ?_, hbatch, ?_, ?_⟩
  · rw [hshape]
    show (redoAddLog sDB.redo block.accountBlock.accountAddress _).logs
      sDB.redo.current = _
    unfold redoAddLog
    simp
  · show fresh.storeOps ++ writeByRedoBatch block.accountBlock.accountAddress
      (writeRedoItem block lr.2 dr.2) = _
    rw [hbatch]
  · exact applyOps_idem _ e k

/-- A state database for the replay examples. -/
def sDBreplayEx : StateDB :=
  ⟨[], ⟨0, fun _ => []⟩, fun _ => none, false, [], fun _ => false⟩

/-- A block with storage, balance, non-empty code and one contract meta
with a ten-byte gid. -/
def blockReplayEx : VmAccountBlock :=
  ⟨⟨1, 11, 3, none, false, 0, []⟩,
   ⟨true, [([1], [2])], [(5, 300)], some [9],
    [(7, ⟨[0, 1, 2, 3, 4, 5, 6, 7, 8, 9], 0, [4]⟩)], .ok [], fun _ => .ok 0⟩⟩

/-- C4 witness: the concrete recorded item replays to the identical batch,
and replaying it twice leaves the engine as replaying it once. -/
theorem writeByRedo_replays_write_witness :
    writeByRedoBatch 1 (writeRedoItem blockReplayEx [] []) =
      writeBatchA blockReplayEx ++ [] ++ [] ∧
    applyOps (applyOps (fun _ => none)
        (writeByRedoBatch 1 (writeRedoItem blockReplayEx [] [])))
      (writeByRedoBatch 1 (writeRedoItem blockReplayEx [] []))
      (StateKey.balance 1 5) =
    applyOps (fun _ => none)
      (writeByRedoBatch 1 (writeRedoItem blockReplayEx [] []))
      (StateKey.balance 1 5) :=
  ⟨(writeByRedo_replays_write sDBreplayEx sDBreplayEx blockReplayEx ([], []) ([], [])
      (fun _ => none) (StateKey.balance 1 5) rfl rfl rfl (by decide) (by decide)).2.2.2.1,
   (writeByRedo_replays_write sDBreplayEx sDBreplayEx blockReplayEx ([], []) ([], [])
      (fun _ => none) (StateKey.balance 1 5) rfl rfl rfl (by decide) (by decide)).2.2.2.2.2⟩

/-- A block whose provider reports contract code that is present but
empty. -/
def blockEmptyCodeEx : VmAccountBlock :=
  ⟨⟨1, 11, 3, none, false, 0, []⟩,
   ⟨true, [], [], some [], [], .ok [], fun _ => .ok 0⟩⟩

/-- C4 counterexample: Write records and puts the empty-but-present
contract code, but WriteByRedo skips it, so the replay of the recorded
item does not write the same latest-value entries. -/
theorem writeByRedo_skips_empty_code_counterexample :
    (stateWrite sDBreplayEx blockEmptyCodeEx).2 = none ∧
    (stateWrite sDBreplayEx blockEmptyCodeEx).1.storeOps = [KVOp.put (.code 1) []] ∧
    (stateWrite sDBreplayEx blockEmptyCodeEx).1.redo.logs 0 =
      [(1, writeRedoItem blockEmptyCodeEx [] [])] ∧
    (stateWriteByRedo sDBreplayEx 11 1 (writeRedoItem blockEmptyCodeEx [] [])).storeOps
      = [] := by
  refine ⟨rfl, by decide, by decide, by decide⟩

/-- Association-list lookup (the model of Go map access). -/
def alookup {α β : Type} [DecidableEq α] : List (α × β) → α → Option β
  | [], _ => none
  | (k, v) :: rest, k' => if k' = k then some v else alookup rest k'

/-- Association-list update-or-insert (the model of Go map assignment). -/
def upsert {α β : Type} [DecidableEq α] : List (α × β) → α → β → List (α × β)
  | [], k, v => [(k, v)]
  | (k0, v0) :: rest, k, v =>
    if k0 = k then (k0, v) :: rest else (k0, v0) :: upsert rest k v

theorem alookup_upsert {α β : Type} [DecidableEq α] (m : List (α × β)) (k k' : α) (v : β) :
    alookup (upsert m k v) k' = if k' = k then some v else alookup m k' := by
  induction m with
  | nil => rfl
  | cons p rest ih =>
    by_cases h0 : p.1 = k
    · have e1 : upsert (p :: rest) k v = (p.1, v) :: rest := by
        show (if p.1 = k then (p.1, v) :: rest else (p.1, p.2) :: upsert rest k v) = _
        rw [if_pos h0]
      rw [e1]
      show (if k' = p.1 then some v else alookup rest k') = _
      by_cases h1 : k' = p.1
      · rw [if_pos h1, if_pos (h1.trans h0)]
      · have h2 : ¬ k' = k := fun he => h1 (he.trans h0.symm)
        rw [if_neg h1, if_neg h2]
        show _ = (if k' = p.1 then some p.2 else alookup rest k')
        rw [if_neg h1]
    · have e1 : upsert (p :: rest) k v = (p.1, p.2) :: upsert rest k v := by
        show (if p.1 = k then (p.1, v) :: rest else (p.1, p.2) :: upsert rest k v) = _
        rw [if_neg h0]
      rw [e1]
      show (if k' = p.1 then some p.2 else alookup (upsert rest k v) k') = _
      by_cases h1 : k' = p.1
      · have h2 : ¬ k' = k := fun he => h0 (h1.symm.trans he)
        rw [if_pos h1, if_neg h2]
        show _ = (if k' = p.1 then some p.2 else alookup rest k')
        rw [if_pos h1]
      · rw [if_neg h1, ih]
        by_cases h2 : k' = k
        · rw [if_pos h2, if_pos h2]
        · rw [if_neg h2, if_neg h2]
          show _ = (if k' = p.1 then some p.2 else alookup rest k')
          rw [if_neg h1]

theorem alookup_mem {α β : Type} [DecidableEq α] (m : List (α × β)) (k : α) (v : β)
    (h : alookup m k = some v) : (k, v) ∈ m := by
  induction m with
  | nil => exact absurd h (by simp [alookup])
  | cons p rest ih =>
    have h2 : (if k = p.1 then some p.2 else alookup rest k) = some v := h
    by_cases hk : k = p.1
    · rw [if_pos hk] at h2
      have hv := (Option.some.injEq _ _).mp h2
      have hp : (k, v) = p := by
        rw [hk, ← hv]
      rw [hp]
      exact List.mem_cons_self _ _
    · rw [if_neg hk] at h2
      exact List.mem_cons_of_mem _ (ih h2)

/-- The value the last pair with a given key carries (later pairs take
priority), matching what repeated Go map assignment leaves behind. -/
def lastPairVal {α β : Type} [DecidableEq α] : List (α × β) → α → Option β
  | [], _ => none
  | p :: ps, k =>
    match lastPairVal ps k with
    | some v => some v
    | none => if p.1 = k then some p.2 else none

theorem alookup_foldl_upsert {α β : Type} [DecidableEq α]
    (pairs : List (α × β)) (m0 : List (α × β)) (k : α) :
    alookup (pairs.foldl (fun m kv => upsert m kv.1 kv.2) m0) k =
      match lastPairVal pairs k with
      | some v => some v
      | none => alookup m0 k := by
  induction pairs generalizing m0 with
  | nil => rfl
  | cons p ps ih =>
    show alookup (ps.foldl (fun m kv => upsert m kv.1 kv.2) (upsert m0 p.1 p.2)) k = _
    rw [ih]
    rw [alookup_upsert]
    show _ = (match (match lastPairVal ps k with
      | some v => some v
      | none => if p.1 = k then some p.2 else none) with
      | some v => some v
      | none => alookup m0 k)
    cases hps : lastPairVal ps k with
    | some v => rfl
    | none =>
      by_cases hk : p.1 = k
      · rw [if_pos hk, if_pos hk.symm]
      · rw [if_neg hk, if_neg (fun h => hk h.symm)]

/-- Modelled from the spec: the per-address map fold of parseRedoLog
(chain_state, not among the shown sources): fold every redo item of the
height, in buffer order, into one map per address, later items
overwriting earlier values for the same key, as Go map assignment does;
sel selects the storage pairs or the balance pairs of an item. -/
def foldRedoMaps {κ2 β : Type} [DecidableEq κ2] (sel : LogItem → List (κ2 × β))
    (items : List (Address × LogItem)) : List (Address × List (κ2 × β)) :=
  items.foldl
    (fun acc ai =>
      upsert acc ai.1
        ((sel ai.2).foldl (fun m kv => upsert m kv.1 kv.2) ((alookup acc ai.1).getD [])))
    []

/-- The value the last redo item of an address writing a given key leaves
for it, across the buffered items in order. -/
def lastSelVal {κ2 β : Type} [DecidableEq κ2] (sel : LogItem → List (κ2 × β)) :
    List (Address × LogItem) → Address → κ2 → Option β
  | [], _, _ => none
  | ai :: rest, addr, k =>
    match lastSelVal sel rest addr k with
    | some v => some v
    | none => if ai.1 = addr then lastPairVal (sel ai.2) k else none

/-- Lookup of one key of one address in the nested per-address maps. -/
def nestedLookup {κ2 β : Type} [DecidableEq κ2]
    (m : List (Address × List (κ2 × β))) (addr : Address) (k : κ2) : Option β :=
  match alookup m addr with
  | some kvs => alookup kvs k
  | none => none

theorem nestedLookup_step {κ2 β : Type} [DecidableEq κ2]
    (sel : LogItem → List (κ2 × β)) (acc : List (Address × List (κ2 × β)))
    (ai : Address × LogItem) (addr : Address) (k : κ2) :
    nestedLookup (upsert acc ai.1 ((sel ai.2).foldl (fun m kv => upsert m kv.1 kv.2)
        ((alookup acc ai.1).getD []))) addr k =
      match (if ai.1 = addr then lastPairVal (sel ai.2) k else none) with
      | some v => some v
      | none => nestedLookup acc addr k := by
  unfold nestedLookup
  rw [alookup_upsert]
  by_cases haddr : addr = ai.1
  · rw [if_pos haddr, if_pos haddr.symm]
    show alookup ((sel ai.2).foldl (fun m kv => upsert m kv.1 kv.2)
      ((alookup acc ai.1).getD [])) k = _
    rw [alookup_foldl_upsert]
    cases hlp : lastPairVal (sel ai.2) k with
    | some v => rfl
    | none =>
      show alookup ((alookup acc ai.1).getD []) k = _
      rw [haddr]
      cases hacc : alookup acc ai.1 with
      | some kvs => rfl
      | none => rfl
  · rw [if_neg haddr, if_neg (fun h => haddr h.symm)]

theorem foldRedoMaps_lookup_aux {κ2 β : Type} [DecidableEq κ2]
    (sel : LogItem → List (κ2 × β)) (items : List (Address × LogItem))
    (addr : Address) (k : κ2) :
    ∀ acc : List (Address × List (κ2 × β)),
    nestedLookup (items.foldl
      (fun acc ai =>
        upsert acc ai.1
          ((sel ai.2).foldl (fun m kv => upsert m kv.1 kv.2)
            ((alookup acc ai.1).getD []))) acc) addr k =
      match lastSelVal sel items addr k with
      | some v => some v
      | none => nestedLookup acc addr k := by
  induction items with
  | nil => intro acc; rfl
  | cons ai rest ih =>
    intro acc
    rw [List.foldl_cons]
    rw [ih]
    rw [nestedLookup_step sel acc ai addr k]
    show _ = (match (match lastSelVal sel rest addr k with
      | some v => some v
      | none => if ai.1 = addr then lastPairVal (sel ai.2) k else none) with
      | some v => some v
      | none => nestedLookup acc addr k)
    cases lastSelVal sel rest addr k with
    | some v => rfl
    | none => rfl

/-- The folded per-address map answers exactly the last value any item of
the address wrote for the key. -/
theorem foldRedoMaps_lookup {κ2 β : Type} [DecidableEq κ2]
    (sel : LogItem → List (κ2 × β)) (items : List (Address × LogItem))
    (addr : Address) (k : κ2) :
    nestedLookup (foldRedoMaps sel items) addr k = lastSelVal sel items addr k := by
  unfold foldRedoMaps
  rw [foldRedoMaps_lookup_aux sel items addr k []]
  cases lastSelVal sel items addr k with
  | some v => rfl
  | none => rfl

/-- The historical storage rows of InsertSnapshotBlock: one put per
(address, key) of the folded maps, keyed additionally by the confirmed
height (write.go lines 210-228). -/
def historyKvOps (kvMaps : List (Address × List (Bytes × Bytes))) (height : Nat) :
    List BOp :=
  (kvMaps.map (fun akv => akv.2.map
    (fun kv => KVOp.put (StateKey.historyStorage akv.1 kv.1 height) kv.2))).flatten

/-- The historical balance rows of InsertSnapshotBlock (write.go lines
230-242). -/
def historyBalanceOps (balMaps : List (Address × List (TokenId × Nat))) (height : Nat) :
    List BOp :=
  (balMaps.map (fun abm => abm.2.map
    (fun tb => KVOp.put (StateKey.historyBalance abm.1 tb.1 height)
      (bigIntBytes tb.2)))).flatten

/-- The cache updates of writeHistoryKey: one conditional snapshot-value
entry per historical storage row (write.go lines 267-280). -/
def historyCacheUpd (sDB : StateDB) (kvMaps : List (Address × List (Bytes × Bytes)))
    (c : Cache) : Cache :=
  kvMaps.foldl (fun c akv => akv.2.foldl (fun c kv =>
    if sDB.shouldCacheContractData akv.1 = true then
      cacheSet c (.snapshotC akv.1 kv.1) kv.2 else c) c) c

/-- StateDB.InsertSnapshotBlock (write.go lines 189-253): advance the redo
manager to the next height, query the confirmed height's buffer, fold it
into historical storage and balance rows when non-empty, and hand the
batch to the staged store. -/
def stateInsertSnapshotBlock (sDB : StateDB) (sb : SnapshotBlockB)
    (confirmedBlocks : List AccountBlockS) : StateDB :=
  if redoQueryLog (redoInsertSnapshotBlock sDB.redo sb) sb.height = [] then
    { sDB with redo := redoInsertSnapshotBlock sDB.redo sb }
  else
    { sDB with
        redo := redoInsertSnapshotBlock sDB.redo sb,
        cache := historyCacheUpd sDB
          (foldRedoMaps LogItem.Storage
            (redoQueryLog (redoInsertSnapshotBlock sDB.redo sb) sb.height)) sDB.cache,
        storeOps := sDB.storeOps
          ++ historyKvOps
              (foldRedoMaps LogItem.Storage
                (redoQueryLog (redoInsertSnapshotBlock sDB.redo sb) sb.height)) sb.height
          ++ historyBalanceOps
              (foldRedoMaps LogItem.BalanceMap
                (redoQueryLog (redoInsertSnapshotBlock sDB.redo sb) sb.height)) sb.height }

theorem mem_historyKvOps (kvMaps : List (Address × List (Bytes × Bytes))) (height : Nat)
    (addr : Address) (kvs : List (Bytes × Bytes)) (k v : Bytes)
    (h1 : (addr, kvs) ∈ kvMaps) (h2 : (k, v) ∈ kvs) :
    KVOp.put (StateKey.historyStorage addr k height) v ∈ historyKvOps kvMaps height := by
  unfold historyKvOps
  apply List.mem_flatten.mpr
  refine ⟨kvs.map (fun kv => KVOp.put (StateKey.historyStorage addr kv.1 height) kv.2),
    List.mem_map.mpr ⟨(addr, kvs), h1, rfl⟩, ?_⟩
  exact List.mem_map.mpr ⟨(k, v), h2, rfl⟩

theorem mem_historyBalanceOps (balMaps : List (Address × List (TokenId × Nat)))
    (height : Nat) (addr : Address) (bals : List (TokenId × Nat)) (t : TokenId) (bal : Nat)
    (h1 : (addr, bals) ∈ balMaps) (h2 : (t, bal) ∈ bals) :
    KVOp.put (StateKey.historyBalance addr t height) (bigIntBytes bal) ∈
      historyBalanceOps balMaps height := by
  unfold historyBalanceOps
  apply List.mem_flatten.mpr
  refine ⟨bals.map (fun tb => KVOp.put (StateKey.historyBalance addr tb.1 height)
      (bigIntBytes tb.2)),
    List.mem_map.mpr ⟨(addr, bals), h1, rfl⟩, ?_⟩
  exact List.mem_map.mpr ⟨(t, bal), h2, rfl⟩

/-- C5 (amended): on snapshot confirmation with a non-empty buffer, for
every address and every storage key touched by the buffered items,
InsertSnapshotBlock writes one historical row (Address, key, height)
holding the LAST value any item of that address wrote for the key (later
items overwrite earlier values of the same key, as the per-address map
fold does), and likewise one historical balance row per (Address,
TokenId) holding the last balance. -/
theorem insertSnapshot_history_rows (sDB : StateDB) (sb : SnapshotBlockB)
    (cbs : List AccountBlockS) (addr : Address) (k : Bytes) (t : TokenId)
    (v : Bytes) (bal : Nat)
    (hne : sDB.redo.logs sb.height ≠ []) :
    (lastSelVal LogItem.Storage (sDB.redo.logs sb.height) addr k = some v →
      KVOp.put (StateKey.historyStorage addr k sb.height) v ∈
        (stateInsertSnapshotBlock sDB sb cbs).storeOps) ∧
    (lastSelVal LogItem.BalanceMap (sDB.redo.logs sb.height) addr t = some bal →
      KVOp.put (StateKey.historyBalance addr t sb.height) (bigIntBytes bal) ∈
        (stateInsertSnapshotBlock sDB sb cbs).storeOps) := by
  have hq : redoQueryLog (redoInsertSnapshotBlock sDB.redo sb) sb.height =
      sDB.redo.logs sb.height := rfl
  unfold stateInsertSnapshotBlock
  rw [hq, if_neg hne]
  constructor
  · intro hlast
    have hl := foldRedoMaps_lookup LogItem.Storage (sDB.redo.logs sb.height) addr k
    rw [hlast] at hl
    unfold nestedLookup at hl
    cases hout : alookup (foldRedoMaps LogItem.Storage (sDB.redo.logs sb.height)) addr with
    | none => rw [hout] at hl; exact absurd hl (by simp)
    | some kvs =>
      rw [hout] at hl
      have hmem1 := alookup_mem _ _ _ hout
      have hmem2 := alookup_mem kvs k v hl
      show _ ∈ sDB.storeOps ++ historyKvOps _ sb.height ++ historyBalanceOps _ sb.height
      apply List.mem_append.mpr
      left
      apply List.mem_append.mpr
      right
      exact mem_historyKvOps _ sb.height addr kvs k v hmem1 hmem2
  · intro hlast
    have hl := foldRedoMaps_lookup LogItem.BalanceMap (sDB.redo.logs sb.height) addr t
    rw [hlast] at hl
    unfold nestedLookup at hl
    cases hout : alookup (foldRedoMaps LogItem.BalanceMap (sDB.redo.logs sb.height)) addr with
    | none => rw [hout] at hl; exact absurd hl (by simp)
    | some bals =>
      rw [hout] at hl
      have hmem1 := alookup_mem _ _ _ hout
      have hmem2 := alookup_mem bals t bal hl
      show _ ∈ sDB.storeOps ++ historyKvOps _ sb.height ++ historyBalanceOps _ sb.height
      apply List.mem_append.mpr
      right
      exact mem_historyBalanceOps _ sb.height addr bals t bal hmem1 hmem2

/-- A state database holding one buffered redo item at height 5 with one
storage pair and one balance. -/
def sDBsnapEx : StateDB :=
  ⟨[], ⟨6, fun h => if h = 5 then
      [(1, ⟨[([9], [1])], [(5, 100)], [], [], [], [], 3⟩)] else []⟩,
   fun _ => none, false, [], fun _ => false⟩

/-- C5 witness: the buffered storage pair and balance get their historical
rows keyed by the confirmed height. -/
theorem insertSnapshot_history_rows_witness :
    KVOp.put (StateKey.historyStorage 1 [9] 5) [1] ∈
      (stateInsertSnapshotBlock sDBsnapEx ⟨200, 5, []⟩ []).storeOps ∧
    KVOp.put (StateKey.historyBalance 1 5 5) (bigIntBytes 100) ∈
      (stateInsertSnapshotBlock sDBsnapEx ⟨200, 5, []⟩ []).storeOps :=
  ⟨(insertSnapshot_history_rows sDBsnapEx ⟨200, 5, []⟩ [] 1 [9] 5 [1] 100
      (by decide)).1 (by decide),
   (insertSnapshot_history_rows sDBsnapEx ⟨200, 5, []⟩ [] 1 [9] 5 [1] 100
      (by decide)).2 (by decide)⟩

/-- A state database with two buffered items of the same address writing
the same storage key with different values. -/
def sDBsnapDup : StateDB :=
  ⟨[], ⟨6, fun h => if h = 5 then
      [(1, ⟨[([9], [1])], [], [], [], [], [], 3⟩),
       (1, ⟨[([9], [2])], [], [], [], [], [], 4⟩)] else []⟩,
   fun _ => none, false, [], fun _ => false⟩

/-- C5 counterexample: of two buffered pairs for the same (address, key),
only the later value gets a historical row; the pair ([9], [1]) of the
first item gets none, so not every storage key-value pair in the items is
written. -/
theorem insertSnapshot_drops_overwritten_pair_counterexample :
    (stateInsertSnapshotBlock sDBsnapDup ⟨200, 5, []⟩ []).storeOps =
      [KVOp.put (StateKey.historyStorage 1 [9] 5) [2]] ∧
    KVOp.put (StateKey.historyStorage 1 [9] 5) [1] ∉
      (stateInsertSnapshotBlock sDBsnapDup ⟨200, 5, []⟩ []).storeOps := by
  decide
